import Mathlib

/-!
# didi::threadpool — a shallow embedding of `threadpool.h`

The free store is an explicit heap of `threadpool_job` cells, the queue and the
pool are records of their C++ fields, and the threads are program counters that
advance by one atomic action at a time.  The callable held by a job is
identified by a natural number; running it appends that number to a log.
The queue's `int length` is a 32-bit integer, the constructor runs under the
resources the system grants it, and a worker does not move once its next action
would touch the pool the destructor has destroyed.
-/

namespace didi

/-! ## Free store -/

/-- One `threadpool_job` object: its callable (by identity) and its `next` pointer. -/
structure threadpool_job where
  function : Nat
  next : Option Nat
deriving DecidableEq, Repr

/-- The free store.  `new` appends a cell, so the address of a cell is its index and
no address is handed out twice; `delete` records the address in `freed`. -/
structure Heap where
  cells : List threadpool_job
  freed : List Nat
deriving DecidableEq, Repr

/-- The empty free store. -/
def Heap.empty : Heap := { cells := [], freed := [] }

/-- Dereference of a job pointer: `none` when the address was never allocated or
has been deleted (undefined behaviour in C++). -/
def Heap.read (m : Heap) (a : Nat) : Option threadpool_job :=
  if a ∈ m.freed then none else m.cells[a]?

/-- The expression `new threadpool_job` followed by `job->function = fn;
job->next = nullptr;` (threadpool.h:274-278): the address of the new object and the
free store holding it. -/
def Heap.new_job (m : Heap) (fn : Nat) : Nat × Heap :=
  (m.cells.length, { m with cells := m.cells ++ [{ function := fn, next := none }] })

/-- The assignment `jb->next = p`. -/
def Heap.set_next (m : Heap) (jb : Nat) (p : Option Nat) : Heap :=
  { m with cells := m.cells.modify (fun c => { c with next := p }) jb }

/-- The statement `delete p`: `none` when `p` is not a live object. -/
def Heap.delete (m : Heap) (a : Nat) : Option Heap :=
  match m.read a with
  | none => none
  | some _ => some { m with freed := a :: m.freed }

/-! ## threadpool_queue -/

/-- Largest value of the source's 32-bit `int`. -/
def INT_MAX : Int := 2147483647

/-- The value an `int` holds after an arithmetic result `x`: 32-bit two's complement,
so that `INT_MAX + 1` comes out as `-2147483648` and `-2147483648 - 1` as `INT_MAX`. -/
def wrap_int (x : Int) : Int := (x + 2147483648) % 4294967296 - 2147483648

/-- Fields of `class threadpool_queue` (threadpool.h:55-64).  `length` is the source's
`int`: `length++` and `length--` go through `wrap_int`.  `lock` is `true` while the
mutex is held; `not_empty` carries no state. -/
structure threadpool_queue where
  length : Int
  lock : Bool
  head : Option Nat
deriving DecidableEq, Repr

/-- Constructor `threadpool_queue()` (threadpool.h:61-64). -/
def threadpool_queue.new : threadpool_queue :=
  { length := 0, lock := false, head := none }

/-- Method `destroy_all_jobs` (threadpool.h:87-97).  The first argument bounds the
recursion depth; `none` means the call does not return normally (budget exhausted,
or a dead pointer was dereferenced or deleted). -/
def threadpool_queue.destroy_all_jobs : Nat → Heap → Option Nat → Option Heap
  | _, m, none => some m
  | 0, _, some _ => none
  | fuel + 1, m, some jb =>
    match m.read jb with
    | none => none
    | some node =>
      match node.next with
      | some nx =>
        match threadpool_queue.destroy_all_jobs fuel m (some nx) with
        | none => none
        | some m1 => m1.delete jb
      | none => some m

/-- Method `clear` (threadpool.h:68-84), entered with the mutex free.  The mutex is
taken first; the two early `return`s leave without `lock.unlock()`. -/
def threadpool_queue.clear (q : threadpool_queue) (m : Heap) :
    Option (threadpool_queue × Heap) :=
  let q1 := { q with lock := true }
  match q1.head with
  | none => some (q1, m)
  | some first =>
    match m.read first with
    | none => none
    | some node =>
      match node.next with
      | none =>
        match m.delete first with
        | none => none
        | some m1 => some (q1, m1)
      | some nx =>
        match threadpool_queue.destroy_all_jobs (m.cells.length + 1) m (some nx) with
        | none => none
        | some m1 => some ({ q1 with head := none, length := 0, lock := false }, m1)

/-- Method `push` (threadpool.h:99-111). -/
def threadpool_queue.push (q : threadpool_queue) (m : Heap) (jb : Option Nat) :
    threadpool_queue × Heap :=
  match jb with
  | none => (q, m)
  | some j =>
    match q.head with
    | none => ({ q with head := some j }, m)
    | some h => ({ q with head := some j }, m.set_next j (some h))

/-- Body of `threadpool::add_job` on the queue (threadpool.h:273-288), entered with
the queue mutex free and leaving it free. -/
def threadpool_queue.add_job (q : threadpool_queue) (m : Heap) (fn : Nat) :
    threadpool_queue × Heap :=
  let (job, m1) := m.new_job fn
  let (q1, m2) :=
    if q.length = 0 then ({ q with head := some job }, m1)
    else q.push m1 (some job)
  ({ q1 with length := wrap_int (q1.length + 1) }, m2)

/-- The worker's "get the next job" block (threadpool.h:152-168), entered with the
queue mutex free and leaving it free: the new queue and the value of `current`.
`none` when `current->next` dereferences a dead or null pointer. -/
def threadpool_queue.dequeue (q : threadpool_queue) (m : Heap) :
    Option (threadpool_queue × Option Nat) :=
  let current := q.head
  if q.length = 0 then some (q, current)
  else if q.length = 1 then some ({ q with head := none, length := 0 }, current)
  else
    match current with
    | none => none
    | some c =>
      match m.read c with
      | none => none
      | some node =>
        some ({ q with head := node.next, length := wrap_int (q.length - 1) }, current)

/-- The live jobs reachable from `p` by following `next`, looking at most `fuel` cells. -/
def Heap.chain (m : Heap) : Nat → Option Nat → List Nat
  | _, none => []
  | 0, some _ => []
  | fuel + 1, some a =>
    match m.read a with
    | none => []
    | some node => a :: Heap.chain m fuel node.next

/-- Number of jobs reachable from `head`.  A chain without a cycle visits each
allocated address at most once, so `cells.length` steps reach its end. -/
def threadpool_queue.reachable (q : threadpool_queue) (m : Heap) : Nat :=
  (m.chain (m.cells.length + 1) q.head).length

/-! ## threadpool -/

/-- Data fields of `class threadpool` (threadpool.h:20-34).  The pool owns exactly one
queue, held here by value; `count_lock` and `all_idle` carry no state because every
critical section on `count_lock` is one atomic action below. -/
structure threadpool where
  threads_alive : Int
  num_threads : Int
  num_threads_working : Int
  queue : threadpool_queue
deriving DecidableEq, Repr

/-- Method `threadpool::wait` (threadpool.h:263-270): the loop test
`queue->length || num_threads_working` evaluated under `count_lock`.  `none` when the
caller blocks in `all_idle.wait`; otherwise the pool as `wait` leaves it. -/
def threadpool.wait (tp : threadpool) : Option threadpool :=
  if tp.queue.length ≠ 0 ∨ tp.num_threads_working ≠ 0 then none else some tp

/-- Method `threadpool::reset` (threadpool.h:255-260) run with no other thread
interleaved: `queue->clear()` then `wait()`.  `none` when it does not return. -/
def threadpool.reset (tp : threadpool) (m : Heap) : Option (threadpool × Heap) :=
  match tp.queue.clear m with
  | none => none
  | some (q, m1) =>
    match threadpool.wait { tp with queue := q } with
    | none => none
    | some tp1 => some (tp1, m1)

/-- Method `threadpool::add_job` (threadpool.h:273-288). -/
def threadpool.add_job (tp : threadpool) (m : Heap) (fn : Nat) : threadpool × Heap :=
  let (q, m1) := tp.queue.add_job m fn
  ({ tp with queue := q }, m1)

/-- The loop `for (int i = 0; i < threadc; i++) num_threads--;` of the destructor
(threadpool.h:243-245). -/
def dec_loop : Nat → Int → Int
  | 0, n => n
  | k + 1, n => dec_loop k (n - 1)

/-! ## Threads -/

/-- Control points of `thread_work_function` (threadpool.h:122-200). -/
inductive WorkerPc
  /-- line 126, before `num_threads++` -/
  | start
  /-- line 130, at the test of `while (tp->threads_alive)` -/
  | loop
  /-- lines 135-138, at the test of the inner wait loop on `not_empty` -/
  | await
  /-- line 142, at `if (!tp->threads_alive)` -/
  | check_kill
  /-- line 147, before `num_threads_working++` -/
  | mark_working
  /-- line 152, before `queue->lock.lock()` -/
  | dequeue
  /-- line 171, the queue mutex released, holding `current` -/
  | got (current : Option Nat)
  /-- line 188, the job run and deleted, before `num_threads_working--` -/
  | mark_idle
  /-- line 195, out of the loop, before `num_threads--` -/
  | leave
  /-- line 199, returned -/
  | done
deriving DecidableEq, Repr

/-- Control points of the thread that owns the pool. -/
inductive MainPc
  /-- constructor, line 226: spinning on `num_threads != threadc` -/
  | ctor_spin (threadc : Int)
  /-- the pool is constructed and no member function is running -/
  | ready
  /-- inside `wait()` called by the owner -/
  | in_wait
  /-- inside `reset()`, `queue->clear()` done, inside `this->wait()` -/
  | reset_wait
  /-- inside `~threadpool()`, inside the `wait()` of `this->reset()` (line 236) -/
  | dtor_wait
  /-- destructor, line 239, before `threads_alive = 0` -/
  | dtor_kill
  /-- destructor, line 241, before the `num_threads` loop -/
  | dtor_count
  /-- destructor, line 249, before the two `notify_all` and `delete this->queue` -/
  | dtor_notify
  /-- destructor returned -/
  | dtor_done
deriving DecidableEq, Repr

/-- The whole program state: the pool, the free store, whether the destructor has
deleted the queue object (line 252) and returned, where every thread stands, and the
log of callables run so far. -/
structure State where
  tp : threadpool
  heap : Heap
  queue_deleted : Bool
  main : MainPc
  workers : List WorkerPc
  executed : List Nat
deriving DecidableEq, Repr

/-- What the constructor can throw: `std::invalid_argument` at line 204,
`std::bad_alloc` from `new threadpool_queue` (line 215) or from `threads.push_back`
(line 220), `std::system_error` from `std::thread` (line 221). -/
inductive Exception
  | invalid_argument (what : String)
  | bad_alloc
  | system_error
deriving DecidableEq, Repr

/-- What the system grants one run of the constructor: whether `new threadpool_queue`
succeeds, how many `threads.push_back` succeed, and how many `std::thread` it starts. -/
structure Resources where
  queue_alloc : Bool
  vector_slots : Nat
  threads : Nat
deriving DecidableEq, Repr

/-- Resources under which a constructor call for `n` threads is refused nothing. -/
def Resources.ample (n : Nat) : Resources :=
  { queue_alloc := true, vector_slots := n, threads := n }

/-- The state built by `threadpool::threadpool(int threadc)` on its way to the spin
loop (threadpool.h:209-224): the fields initialised, the queue allocated, `threadc`
threads created.  A thread that has been created but has not run yet stands at
`start`. -/
def threadpool.spawned (threadc : Int) : State :=
  { tp := { threads_alive := 1, num_threads := 0, num_threads_working := 0,
            queue := threadpool_queue.new }
    heap := Heap.empty
    queue_deleted := false
    main := .ctor_spin threadc
    workers := List.replicate threadc.toNat .start
    executed := [] }

/-- Constructor `threadpool::threadpool(int threadc)` up to the spin loop
(threadpool.h:202-224) under the resources `r`: the exception that leaves it, or the
state with the threads created.  The creation loop fails in its first pass `i` that
is refused a resource: at `push_back` when `i = r.vector_slots`, else at
`std::thread` when `i = r.threads`. -/
def threadpool.create (r : Resources) (threadc : Int) : Except Exception State :=
  if threadc < 0 then .error (.invalid_argument "threadc may not be less than 1")
  else if r.queue_alloc = false then .error .bad_alloc
  else if r.vector_slots < threadc.toNat ∧ r.vector_slots ≤ r.threads then .error .bad_alloc
  else if r.threads < threadc.toNat then .error .system_error
  else .ok (threadpool.spawned threadc)

/-- Move worker `i` to control point `pc`. -/
def State.goto (s : State) (i : Nat) (pc : WorkerPc) : State :=
  { s with workers := s.workers.set i pc }

/-- Does the action at this control point read or write the pool or its queue?  Every
action does, except running and deleting the job held in `current` (lines 181-185)
and being returned. -/
def WorkerPc.uses_pool : WorkerPc → Bool
  | .got (some _) => false
  | .done => false
  | _ => true

/-- The next action of worker `i` would read or write the pool after `~threadpool` has
returned and deleted the queue: a use after free, of undefined behaviour. -/
def State.use_after_free (s : State) (i : Nat) : Bool :=
  s.queue_deleted &&
    match s.workers[i]? with
    | none => false
    | some pc => pc.uses_pool

/-- One atomic action of worker `i` in `thread_work_function`; `none` when the worker
cannot move (it is blocked on the queue mutex or on `not_empty`, or has returned) or
when its action has no defined behaviour (a use after free of the pool, or the
dereference of a dead job pointer). -/
def thread_work_function (s : State) (i : Nat) : Option State :=
  if s.use_after_free i then none
  else
  match s.workers[i]? with
  | none => none
  | some .start =>
    some ({ s with tp := { s.tp with num_threads := s.tp.num_threads + 1 } }.goto i .loop)
  | some .loop =>
    if s.tp.threads_alive ≠ 0 then some (s.goto i .await) else some (s.goto i .leave)
  | some .await =>
    if s.tp.queue.lock then none
    else if s.tp.queue.length = 0 ∧ s.tp.threads_alive ≠ 0 then none
    else some (s.goto i .check_kill)
  | some .check_kill =>
    if s.tp.threads_alive = 0 then some (s.goto i .leave) else some (s.goto i .mark_working)
  | some .mark_working =>
    some ({ s with tp := { s.tp with num_threads_working := s.tp.num_threads_working + 1 } }.goto
      i .dequeue)
  | some .dequeue =>
    if s.tp.queue.lock then none
    else
      match s.tp.queue.dequeue s.heap with
      | none => none
      | some (q, current) => some ({ s with tp := { s.tp with queue := q } }.goto i (.got current))
  | some (.got none) =>
    some ({ s with tp := { s.tp with num_threads_working := s.tp.num_threads_working - 1 } }.goto
      i .loop)
  | some (.got (some c)) =>
    match s.heap.read c with
    | none => none
    | some node =>
      match s.heap.delete c with
      | none => none
      | some m1 =>
        some ({ s with heap := m1, executed := s.executed ++ [node.function] }.goto i .mark_idle)
  | some .mark_idle =>
    some ({ s with tp := { s.tp with num_threads_working := s.tp.num_threads_working - 1 } }.goto
      i .loop)
  | some .leave =>
    some ({ s with tp := { s.tp with num_threads := s.tp.num_threads - 1 } }.goto i .done)
  | some .done => none

/-- What can happen next: the owner calls a member function (only between calls), the
owner continues the call it is in, or worker `i` performs its next action. -/
inductive Action
  | add_job (fn : Nat)
  | wait
  | reset
  | destroy
  | main
  | worker (i : Nat)
deriving DecidableEq, Repr

/-- The owner continues the member function it is in; `none` when it is blocked or
when no member function is running. -/
def main_step (s : State) : Option State :=
  match s.main with
  | .ctor_spin threadc =>
    if s.tp.num_threads ≠ threadc then none else some { s with main := .ready }
  | .ready => none
  | .in_wait =>
    match s.tp.wait with
    | none => none
    | some tp1 => some { s with tp := tp1, main := .ready }
  | .reset_wait =>
    match s.tp.wait with
    | none => none
    | some tp1 => some { s with tp := tp1, main := .ready }
  | .dtor_wait =>
    match s.tp.wait with
    | none => none
    | some tp1 => some { s with tp := tp1, main := .dtor_kill }
  | .dtor_kill => some { s with tp := { s.tp with threads_alive := 0 }, main := .dtor_count }
  | .dtor_count =>
    some { s with
      tp := { s.tp with num_threads := dec_loop s.tp.num_threads.toNat s.tp.num_threads }
      main := .dtor_notify }
  | .dtor_notify => some { s with queue_deleted := true, main := .dtor_done }
  | .dtor_done => none

/-- One atomic action of the program.  Everything done between `lock.lock()` and the
matching `unlock()` (or the early `return`) of the queue mutex is one action, enabled
only while the mutex is free; a thread inside `condition_variable::wait` moves once
its loop test lets it through. -/
def step (s : State) : Action → Option State
  | .add_job fn =>
    if s.main = .ready ∧ s.tp.queue.lock = false then
      let (tp1, m1) := s.tp.add_job s.heap fn
      some { s with tp := tp1, heap := m1 }
    else none
  | .wait => if s.main = .ready then some { s with main := .in_wait } else none
  | .reset =>
    if s.main = .ready ∧ s.tp.queue.lock = false then
      match s.tp.queue.clear s.heap with
      | none => none
      | some (q, m1) =>
        some { s with tp := { s.tp with queue := q }, heap := m1, main := .reset_wait }
    else none
  | .destroy =>
    if s.main = .ready ∧ s.tp.queue.lock = false then
      match s.tp.queue.clear s.heap with
      | none => none
      | some (q, m1) =>
        some { s with tp := { s.tp with queue := q }, heap := m1, main := .dtor_wait }
    else none
  | .main => main_step s
  | .worker i => thread_work_function s i

/-- Run a schedule; `none` when some action of it is not enabled. -/
def run (s : State) : List Action → Option State
  | [] => some s
  | a :: as =>
    match step s a with
    | none => none
    | some s1 => run s1 as

/-- The constructor, refused no resource, run to its return on the schedule where
every created thread registers (line 127) and the owner then leaves the spin loop. -/
def constructed (threadc : Nat) : Option State :=
  match threadpool.create (Resources.ample threadc) threadc with
  | .error _ => none
  | .ok s0 => run s0 ((List.range threadc).map Action.worker ++ [Action.main])

/-- Schedule of one full pass of worker `i` through its loop body that finds a job:
loop test, inner wait test, kill test, mark working, dequeue, run and delete, mark idle. -/
def worker_pass (i : Nat) : List Action := List.replicate 7 (Action.worker i)

/-- Worker control points between `num_threads_working++` and the matching
`num_threads_working--`. -/
def WorkerPc.working : WorkerPc → Bool
  | .dequeue => true
  | .got _ => true
  | .mark_idle => true
  | _ => false

/-- Worker control points between `num_threads++` (line 127) and the worker's own
`num_threads--` (line 196): the worker is live. -/
def WorkerPc.live : WorkerPc → Bool
  | .start => false
  | .done => false
  | _ => true

/-- The destructor has got past the `wait()` inside its `reset()`. -/
def MainPc.past_wait : MainPc → Bool
  | .dtor_kill => true
  | .dtor_count => true
  | .dtor_notify => true
  | .dtor_done => true
  | _ => false

/-- The destructor has run its own `num_threads--` loop (lines 241-246). -/
def MainPc.counted : MainPc → Bool
  | .dtor_notify => true
  | .dtor_done => true
  | _ => false

/-- The destructor has executed `threads_alive = 0` (line 239). -/
def MainPc.killed : MainPc → Bool
  | .dtor_count => true
  | .dtor_notify => true
  | .dtor_done => true
  | _ => false

/-- The destructor has returned. -/
def MainPc.returned : MainPc → Bool
  | .dtor_done => true
  | _ => false

/-- Number of live workers. -/
def State.live_workers (s : State) : Nat := s.workers.countP WorkerPc.live

/-- The owner is inside `~threadpool()`, past the `queue->clear()` of its `reset()`, or
has returned from it. -/
def MainPc.in_dtor : MainPc → Bool
  | .dtor_wait => true
  | .dtor_kill => true
  | .dtor_count => true
  | .dtor_notify => true
  | .dtor_done => true
  | _ => false

/-- What holds of the counters and of the destructor in every state the program
reaches. -/
structure PoolInv (s : State) : Prop where
  alive_eq : s.tp.threads_alive = if s.main.killed then 0 else 1
  deleted_eq : s.queue_deleted = s.main.returned
  working_eq : s.tp.num_threads_working = (s.workers.countP WorkerPc.working : Nat)
  threads_eq : s.main.counted = false → s.tp.num_threads = (s.live_workers : Nat)
  dtor_queue : s.main.in_dtor = true →
    s.tp.queue.lock = true ∨ (s.tp.queue.head = none ∧ s.tp.queue.length = 0)
  drained : s.main.past_wait = true → ∀ c, WorkerPc.got (some c) ∉ s.workers

/-- A one-worker pool, the worker registered and idle, the owner just inside `wait()`. -/
def waiting_pool : State :=
  { tp := { threads_alive := 1, num_threads := 1, num_threads_working := 0,
            queue := threadpool_queue.new }
    heap := Heap.empty
    queue_deleted := false
    main := MainPc.in_wait
    workers := [WorkerPc.loop]
    executed := [] }

/-- A two-worker pool holding one job: worker 0 has marked itself working and is about
to dequeue, worker 1 has only registered. -/
def busy_pool : State :=
  { tp := { threads_alive := 1, num_threads := 2, num_threads_working := 1,
            queue := { length := 1, lock := false, head := some 0 } }
    heap := { cells := [{ function := 5, next := none }], freed := [] }
    queue_deleted := false
    main := MainPc.ready
    workers := [WorkerPc.dequeue, WorkerPc.loop]
    executed := [] }

/-- A schedule that takes the two-worker pool from its creation to `busy_pool`. -/
def busy_schedule : List Action :=
  [Action.worker 0, Action.worker 1, Action.main, Action.add_job 5,
    Action.worker 0, Action.worker 0, Action.worker 0, Action.worker 0]

/-- A pool of `n` workers as the constructor leaves it when every worker has registered
and none has moved further: the value of `constructed n`. -/
def fresh_pool (n : Nat) : State :=
  { tp := { threads_alive := 1, num_threads := n, num_threads_working := 0,
            queue := threadpool_queue.new }
    heap := Heap.empty
    queue_deleted := false
    main := MainPc.ready
    workers := List.replicate n WorkerPc.loop
    executed := [] }

/-- A one-worker pool whose destructor has returned while the worker, registered and
never scheduled since, still stands at the head of its loop. -/
def destroyed_pool : State :=
  { tp := { threads_alive := 0, num_threads := 0, num_threads_working := 0,
            queue := { length := 0, lock := true, head := none } }
    heap := Heap.empty
    queue_deleted := true
    main := MainPc.dtor_done
    workers := [WorkerPc.loop]
    executed := [] }

/-- The schedule that leads a one-worker pool to `destroyed_pool`: the worker registers,
the constructor returns, then the destructor runs from its first to its last line. -/
def destroy_schedule : List Action :=
  [Action.worker 0, Action.main, Action.destroy, Action.main, Action.main, Action.main,
    Action.main]

/-- A one-worker pool in which the owner submitted one job and then called `reset()`:
`clear()` took its single-job early return, so the mutex is held, `length` is still 1,
`head` still points at the deleted job, and the owner is inside `wait()`. -/
def stuck_pool : State :=
  { tp := { threads_alive := 1, num_threads := 1, num_threads_working := 0,
            queue := { length := 1, lock := true, head := some 0 } }
    heap := { cells := [{ function := 7, next := none }], freed := [0] }
    queue_deleted := false
    main := MainPc.reset_wait
    workers := [WorkerPc.loop]
    executed := [] }

/-- The list `l` gives, from `p` on, the address and the callable of every job linked by
`next` up to the null pointer, each of them a live object. -/
def IsChain (m : Heap) : Option Nat → List (Nat × Nat) → Prop
  | p, [] => p = none
  | p, (a, f) :: l => p = some a ∧ ∃ nx, m.read a = some { function := f, next := nx } ∧
      IsChain m nx l

/-- The job a worker holds in `current` after dequeuing it and before deleting it. -/
def WorkerPc.held : WorkerPc → Option Nat
  | .got c => c
  | _ => none

/-- Addresses of the jobs that have been dequeued and not yet deleted. -/
def State.in_flight (s : State) : List Nat := s.workers.filterMap WorkerPc.held

/-- The queue is a null-terminated list of `length` live jobs, at most `INT_MAX` of
them, and these jobs and the jobs held by workers are pairwise distinct live
objects. -/
structure QueueInv (s : State) (l : List (Nat × Nat)) : Prop where
  chain : IsChain s.heap s.tp.queue.head l
  length_eq : s.tp.queue.length = l.length
  nodup : (l.map Prod.fst ++ s.in_flight).Nodup
  live : ∀ a ∈ s.in_flight, ∃ node, s.heap.read a = some node
  freed_lt : ∀ a ∈ s.heap.freed, a < s.heap.cells.length
  bound : (l.length : Int) ≤ INT_MAX

/-- The owner neither resets nor destroys the pool in this action. -/
def Action.keeps_jobs : Action → Bool
  | .reset => false
  | .destroy => false
  | _ => true

/-- Along the run of `acts` from `s`, `add_job` is never called while `length` is
`INT_MAX`: the `length++` of line 285 never overflows. -/
def no_overflow : State → List Action → Bool
  | _, [] => true
  | s, a :: as =>
    (match a with
      | .add_job _ => decide (s.tp.queue.length < INT_MAX)
      | _ => true) &&
    (match step s a with
      | none => true
      | some s1 => no_overflow s1 as)

/-- Worker 0 repeats full passes through its loop body until it finds the queue empty;
`none` when `fuel` passes do not empty the queue or a pass cannot be completed. -/
def drain : Nat → State → Option State
  | 0, s => if s.tp.queue.length = 0 then some s else none
  | fuel + 1, s =>
    if s.tp.queue.length = 0 then some s
    else
      match run s (worker_pass 0) with
      | none => none
      | some s1 => drain fuel s1

end didi

namespace didi

/-! ## Counting workers -/

theorem countP_set_int {α : Type} (p : α → Bool) (ws : List α) (i : Nat) (a b : α)
    (h : ws[i]? = some a) :
    ((ws.set i b).countP p : Int)
      = ws.countP p - (if p a then 1 else 0) + (if p b then 1 else 0) := by
  induction ws generalizing i with
  | nil => simp at h
  | cons w ws ih =>
    cases i with
    | zero =>
      simp at h
      subst h
      simp only [List.set_cons_zero, List.countP_cons]
      split_ifs <;> push_cast <;> omega
    | succ i =>
      simp at h
      simp only [List.set_cons_succ, List.countP_cons, Nat.cast_add, ih i h]
      split_ifs <;> push_cast <;> omega

theorem mem_set_cases {α : Type} {ws : List α} {i : Nat} {b x : α}
    (h : x ∈ ws.set i b) : x ∈ ws ∨ x = b :=
  List.mem_or_eq_of_mem_set h

theorem countP_le_of_int {α : Type} (p q : α → Bool) (ws : List α)
    (h : ∀ x, p x = true → q x = true) : ws.countP p ≤ ws.countP q := by
  induction ws with
  | nil => simp
  | cons w ws ih =>
    simp only [List.countP_cons]
    have := h w
    split <;> split <;> simp_all; omega

theorem working_le_live (ws : List WorkerPc) :
    ws.countP WorkerPc.working ≤ ws.countP WorkerPc.live :=
  countP_le_of_int _ _ ws (by intro x hx; cases x <;> simp_all [WorkerPc.working, WorkerPc.live])

theorem no_working_of_countP_zero (ws : List WorkerPc)
    (h : ws.countP WorkerPc.working = 0) (c : Option Nat) : WorkerPc.got c ∉ ws := by
  intro hm
  have : 0 < ws.countP WorkerPc.working :=
    List.countP_pos_iff.mpr ⟨_, hm, by simp [WorkerPc.working]⟩
  omega

/-! ## The counter invariant is preserved by every action -/

theorem wrap_int_of_range {x : Int} (h0 : -2147483648 ≤ x) (h1 : x ≤ 2147483647) :
    wrap_int x = x := by
  unfold wrap_int
  omega

theorem dequeue_zero {q q' : threadpool_queue} {m : Heap} {current : Option Nat}
    (h0 : q.length = 0) (hd : q.dequeue m = some (q', current)) :
    q' = q ∧ current = q.head := by
  unfold threadpool_queue.dequeue at hd
  simp only [h0, if_true] at hd
  simp at hd
  exact ⟨hd.1.symm, hd.2.symm⟩

theorem past_wait_in_dtor {pc : MainPc} (h : pc.past_wait = true) : pc.in_dtor = true := by
  cases pc <;> simp_all [MainPc.past_wait, MainPc.in_dtor]

theorem PoolInv.pool_goto {s : State} {i : Nat} {pc pc' : WorkerPc} (tp : threadpool) (m : Heap)
    (ex : List Nat) (h : PoolInv s) (hpc : s.workers[i]? = some pc)
    (hw : tp.num_threads_working
        = s.tp.num_threads_working - (if pc.working then 1 else 0) + (if pc'.working then 1 else 0))
    (hl : tp.num_threads
        = s.tp.num_threads - (if pc.live then 1 else 0) + (if pc'.live then 1 else 0))
    (ha : tp.threads_alive = s.tp.threads_alive)
    (hq : s.main.in_dtor = true →
      tp.queue.lock = true ∨ (tp.queue.head = none ∧ tp.queue.length = 0))
    (hg : s.main.past_wait = true → ∀ c, pc' ≠ WorkerPc.got (some c)) :
    PoolInv ({ s with tp := tp, heap := m, executed := ex }.goto i pc') := by
  refine ⟨by simpa [State.goto, ha] using h.alive_eq, h.deleted_eq, ?_, ?_, hq, ?_⟩
  · have := countP_set_int WorkerPc.working s.workers i pc pc' hpc
    simp only [State.goto]
    rw [this, hw, h.working_eq]
  · intro hm
    have := countP_set_int WorkerPc.live s.workers i pc pc' hpc
    simp only [State.goto, State.live_workers]
    rw [this, hl, h.threads_eq hm]
    rfl
  · intro hm c hc
    rcases mem_set_cases hc with hc | hc
    · exact h.drained hm c hc
    · exact hg hm c hc.symm

theorem PoolInv.pool_worker_step {s s' : State} {i : Nat} (h : PoolInv s)
    (hs : thread_work_function s i = some s') : PoolInv s' := by
  unfold didi.thread_work_function at hs
  split at hs
  · simp at hs
  cases hpc : s.workers[i]? with
  | none => simp [hpc] at hs
  | some pc =>
    simp only [hpc] at hs
    cases pc with
    | start =>
      simp at hs; subst hs
      exact PoolInv.pool_goto _ s.heap s.executed h hpc (by simp [WorkerPc.working])
        (by simp [WorkerPc.live]) rfl h.dtor_queue (by simp)
    | loop =>
      dsimp only at hs
      split at hs <;> (simp at hs; subst hs)
      · exact PoolInv.pool_goto s.tp s.heap s.executed h hpc (by simp [WorkerPc.working])
          (by simp [WorkerPc.live]) rfl h.dtor_queue (by simp)
      · exact PoolInv.pool_goto s.tp s.heap s.executed h hpc (by simp [WorkerPc.working])
          (by simp [WorkerPc.live]) rfl h.dtor_queue (by simp)
    | await =>
      dsimp only at hs
      split at hs
      · simp at hs
      · split at hs
        · simp at hs
        · simp at hs; subst hs
          exact PoolInv.pool_goto s.tp s.heap s.executed h hpc (by simp [WorkerPc.working])
            (by simp [WorkerPc.live]) rfl h.dtor_queue (by simp)
    | check_kill =>
      dsimp only at hs
      split at hs <;> (simp at hs; subst hs)
      · exact PoolInv.pool_goto s.tp s.heap s.executed h hpc (by simp [WorkerPc.working])
          (by simp [WorkerPc.live]) rfl h.dtor_queue (by simp)
      · exact PoolInv.pool_goto s.tp s.heap s.executed h hpc (by simp [WorkerPc.working])
          (by simp [WorkerPc.live]) rfl h.dtor_queue (by simp)
    | mark_working =>
      simp at hs; subst hs
      exact PoolInv.pool_goto _ s.heap s.executed h hpc (by simp [WorkerPc.working])
        (by simp [WorkerPc.live]) rfl h.dtor_queue (by simp)
    | dequeue =>
      dsimp only at hs
      split at hs
      · simp at hs
      · rename_i hlock
        cases hd : s.tp.queue.dequeue s.heap with
        | none => simp [hd] at hs
        | some r =>
          obtain ⟨q, current⟩ := r
          simp [hd] at hs; subst hs
          have hz : s.main.in_dtor = true → q = s.tp.queue ∧ current = none := by
            intro hin
            rcases h.dtor_queue hin with hl | ⟨hh, h0⟩
            · exact absurd hl hlock
            · have := dequeue_zero h0 hd
              exact ⟨this.1, by rw [this.2, hh]⟩
          exact PoolInv.pool_goto _ s.heap s.executed h hpc (by simp [WorkerPc.working])
            (by simp [WorkerPc.live]) rfl
            (by
              intro hin
              rw [(hz hin).1]
              exact h.dtor_queue hin)
            (by
              intro hp c hc
              have := (hz (past_wait_in_dtor hp)).2
              simp_all)
    | got current =>
      cases current with
      | none =>
        simp at hs; subst hs
        exact PoolInv.pool_goto _ s.heap s.executed h hpc (by simp [WorkerPc.working])
          (by simp [WorkerPc.live]) rfl h.dtor_queue (by simp)
      | some c =>
        dsimp only at hs
        cases hr : s.heap.read c with
        | none => simp [hr] at hs
        | some node =>
          cases hdel : s.heap.delete c with
          | none => simp [hr, hdel] at hs
          | some m1 =>
            simp [hr, hdel] at hs; subst hs
            exact PoolInv.pool_goto s.tp m1 _ h hpc (by simp [WorkerPc.working])
              (by simp [WorkerPc.live]) rfl h.dtor_queue (by simp)
    | mark_idle =>
      simp at hs; subst hs
      exact PoolInv.pool_goto _ s.heap s.executed h hpc (by simp [WorkerPc.working])
        (by simp [WorkerPc.live]) rfl h.dtor_queue (by simp)
    | leave =>
      simp at hs; subst hs
      exact PoolInv.pool_goto _ s.heap s.executed h hpc (by simp [WorkerPc.working])
        (by simp [WorkerPc.live]) rfl h.dtor_queue (by simp)
    | done => simp at hs

theorem wait_eq_some {tp tp1 : threadpool} (h : tp.wait = some tp1) :
    tp1 = tp ∧ tp.queue.length = 0 ∧ tp.num_threads_working = 0 := by
  unfold threadpool.wait at h
  split at h
  · simp at h
  · simp at h
    rename_i hq
    push_neg at hq
    exact ⟨h.symm, hq.1, hq.2⟩

theorem clear_facts {q q' : threadpool_queue} {m m' : Heap}
    (h : q.clear m = some (q', m')) :
    (q'.length = q.length ∧ q'.head = q.head ∧ q'.lock = true) ∨
      (q'.length = 0 ∧ q'.head = none ∧ q'.lock = false) := by
  unfold threadpool_queue.clear at h
  dsimp only at h
  split at h
  · simp at h
    obtain ⟨rfl, rfl⟩ := h
    simp
  · split at h
    · simp at h
    · split at h
      · split at h
        · simp at h
        · simp at h
          obtain ⟨rfl, rfl⟩ := h
          simp
      · split at h
        · simp at h
        · simp at h
          obtain ⟨rfl, rfl⟩ := h
          simp

theorem add_job_length (q : threadpool_queue) (m : Heap) (fn : Nat) :
    (q.add_job m fn).1.length = wrap_int (q.length + 1) ∧ (q.add_job m fn).1.lock = q.lock ∧
      (q.add_job m fn).1.head = some m.cells.length := by
  unfold threadpool_queue.add_job Heap.new_job threadpool_queue.push
  dsimp only
  split
  · simp
  · split <;> simp

theorem PoolInv.pool_main_step {s s' : State} (h : PoolInv s)
    (hs : main_step s = some s') : PoolInv s' := by
  unfold didi.main_step at hs
  split at hs
  · split at hs
    · simp at hs
    · simp at hs; subst hs
      rename_i hm _
      exact ⟨by simpa [hm, MainPc.killed] using h.alive_eq,
        by simpa [hm, MainPc.returned] using h.deleted_eq, h.working_eq,
        fun _ => h.threads_eq (by simp [hm, MainPc.counted]), by simp [MainPc.in_dtor],
        by simp [MainPc.past_wait]⟩
  · simp at hs
  · split at hs
    · simp at hs
    · rename_i hm _ tp1 hw
      simp at hs; subst hs
      obtain ⟨rfl, -, -⟩ := wait_eq_some hw
      exact ⟨by simpa [hm, MainPc.killed] using h.alive_eq,
        by simpa [hm, MainPc.returned] using h.deleted_eq, h.working_eq,
        fun _ => h.threads_eq (by simp [hm, MainPc.counted]), by simp [MainPc.in_dtor],
        by simp [MainPc.past_wait]⟩
  · split at hs
    · simp at hs
    · rename_i hm _ tp1 hw
      simp at hs; subst hs
      obtain ⟨rfl, -, -⟩ := wait_eq_some hw
      exact ⟨by simpa [hm, MainPc.killed] using h.alive_eq,
        by simpa [hm, MainPc.returned] using h.deleted_eq, h.working_eq,
        fun _ => h.threads_eq (by simp [hm, MainPc.counted]), by simp [MainPc.in_dtor],
        by simp [MainPc.past_wait]⟩
  · split at hs
    · simp at hs
    · rename_i hm _ tp1 hw
      simp at hs; subst hs
      obtain ⟨rfl, h0, hw0⟩ := wait_eq_some hw
      refine ⟨by simpa [hm, MainPc.killed] using h.alive_eq,
        by simpa [hm, MainPc.returned] using h.deleted_eq, h.working_eq,
        fun _ => h.threads_eq (by simp [hm, MainPc.counted]),
        fun _ => h.dtor_queue (by simp [hm, MainPc.in_dtor]), fun _ => ?_⟩
      intro c
      apply no_working_of_countP_zero
      have := h.working_eq
      rw [hw0] at this
      exact_mod_cast this.symm
  · rename_i hm
    simp at hs; subst hs
    exact ⟨by simp [MainPc.killed],
      by simpa [hm, MainPc.returned] using h.deleted_eq, h.working_eq,
      fun _ => h.threads_eq (by simp [hm, MainPc.counted]),
      fun _ => h.dtor_queue (by simp [hm, MainPc.in_dtor]),
      fun _ => h.drained (by simp [hm, MainPc.past_wait])⟩
  · rename_i hm
    simp at hs; subst hs
    exact ⟨by simpa [hm, MainPc.killed] using h.alive_eq,
      by simpa [hm, MainPc.returned] using h.deleted_eq, h.working_eq,
      by simp [MainPc.counted],
      fun _ => h.dtor_queue (by simp [hm, MainPc.in_dtor]),
      fun _ => h.drained (by simp [hm, MainPc.past_wait])⟩
  · rename_i hm
    simp at hs; subst hs
    exact ⟨by simpa [hm, MainPc.killed] using h.alive_eq,
      by simp [MainPc.returned], h.working_eq,
      by simp [MainPc.counted],
      fun _ => h.dtor_queue (by simp [hm, MainPc.in_dtor]),
      fun _ => h.drained (by simp [hm, MainPc.past_wait])⟩
  · simp at hs

theorem PoolInv.pool_step {s s' : State} {a : Action} (h : PoolInv s)
    (hs : step s a = some s') : PoolInv s' := by
  cases a with
  | add_job fn =>
    simp only [didi.step] at hs
    split at hs
    · rename_i hg
      simp [threadpool.add_job] at hs; subst hs
      exact ⟨by simpa [hg.1, MainPc.killed] using h.alive_eq,
        by simpa [hg.1, MainPc.returned] using h.deleted_eq, h.working_eq,
        fun _ => h.threads_eq (by simp [hg.1, MainPc.counted]),
        by simp [hg.1, MainPc.in_dtor], by simp [hg.1, MainPc.past_wait]⟩
    · simp at hs
  | wait =>
    simp only [didi.step] at hs
    split at hs
    · rename_i hg
      simp at hs; subst hs
      exact ⟨by simpa [hg, MainPc.killed] using h.alive_eq,
        by simpa [hg, MainPc.returned] using h.deleted_eq, h.working_eq,
        fun _ => h.threads_eq (by simp [hg, MainPc.counted]),
        by simp [MainPc.in_dtor], by simp [MainPc.past_wait]⟩
    · simp at hs
  | reset =>
    simp only [didi.step] at hs
    split at hs
    · rename_i hg
      split at hs
      · simp at hs
      · rename_i q m1 hc
        simp at hs; subst hs
        exact ⟨by simpa [hg.1, MainPc.killed] using h.alive_eq,
          by simpa [hg.1, MainPc.returned] using h.deleted_eq, h.working_eq,
          fun _ => h.threads_eq (by simp [hg.1, MainPc.counted]),
          by simp [MainPc.in_dtor], by simp [MainPc.past_wait]⟩
    · simp at hs
  | destroy =>
    simp only [didi.step] at hs
    split at hs
    · rename_i hg
      split at hs
      · simp at hs
      · rename_i q m1 hc
        simp at hs; subst hs
        have hq := clear_facts hc
        refine ⟨by simpa [hg.1, MainPc.killed] using h.alive_eq,
          by simpa [hg.1, MainPc.returned] using h.deleted_eq, h.working_eq,
          fun _ => h.threads_eq (by simp [hg.1, MainPc.counted]),
          fun _ => ?_, by simp [MainPc.past_wait]⟩
        rcases hq with hq | hq
        · exact Or.inl hq.2.2
        · exact Or.inr ⟨hq.2.1, hq.1⟩
    · simp at hs
  | main => exact h.pool_main_step hs
  | worker i => exact h.pool_worker_step hs

theorem create_eq_spawned {r : Resources} {threadc : Int} {s0 : State}
    (h : threadpool.create r threadc = Except.ok s0) : s0 = threadpool.spawned threadc := by
  unfold threadpool.create at h
  split at h
  · simp at h
  · split at h
    · simp at h
    · split at h
      · simp at h
      · split at h
        · simp at h
        · simp at h; exact h.symm

theorem PoolInv.pool_create {r : Resources} {threadc : Int} {s0 : State}
    (h : threadpool.create r threadc = .ok s0) : PoolInv s0 := by
  rw [create_eq_spawned h]
  refine ⟨?_, ?_, ?_, ?_, ?_, ?_⟩ <;>
    simp [threadpool.spawned, threadpool_queue.new, MainPc.past_wait, MainPc.killed,
      MainPc.returned, MainPc.in_dtor, Heap.empty, State.live_workers, List.countP_replicate,
      WorkerPc.working, WorkerPc.live]

theorem PoolInv.pool_run {s s' : State} {acts : List Action} (h : PoolInv s)
    (hs : run s acts = some s') : PoolInv s' := by
  induction acts generalizing s with
  | nil => simp [didi.run] at hs; subst hs; exact h
  | cons a as ih =>
    simp only [didi.run] at hs
    split at hs
    · simp at hs
    · rename_i s1 h1
      exact ih (h.pool_step h1) hs

/-! ## wait() -/

/-- C7: `wait()` called by the owner returns only from a state in which the queue
length and `num_threads_working` are both zero, the return changes nothing but the
owner's control point, and on a pool that is already quiescent `wait()` does not
block. -/
theorem wait_returns_iff_quiescent (s s' : State) (hpc : s.main = MainPc.in_wait) :
    (main_step s = some s' →
      s.tp.queue.length = 0 ∧ s.tp.num_threads_working = 0 ∧
        s' = { s with main := MainPc.ready } ∧
        s'.tp.queue.length = 0 ∧ s'.tp.num_threads_working = 0) ∧
    (s.tp.queue.length = 0 → s.tp.num_threads_working = 0 →
      s.tp.wait = some s.tp ∧ main_step s = some { s with main := MainPc.ready }) := by
  constructor
  · intro hs
    unfold main_step at hs
    simp only [hpc] at hs
    split at hs
    · simp at hs
    · rename_i tp1 hw
      obtain ⟨rfl, h0, hw0⟩ := wait_eq_some hw
      simp at hs
      subst hs
      exact ⟨h0, hw0, rfl, h0, hw0⟩
  · intro h0 hw0
    have hw : s.tp.wait = some s.tp := by simp [threadpool.wait, h0, hw0]
    refine ⟨hw, ?_⟩
    unfold main_step
    simp only [hpc, hw]

/-- C7 witness: the owner of a freshly constructed one-worker pool calls `wait()`; the
call returns from that quiescent state and changes nothing else. -/
theorem wait_returns_iff_quiescent_witness :
    (constructed 1).bind (fun s1 => step s1 Action.wait) = some waiting_pool ∧
      main_step waiting_pool = some { waiting_pool with main := MainPc.ready } ∧
      (waiting_pool.tp.queue.length = 0 ∧ waiting_pool.tp.num_threads_working = 0 ∧
        ({ waiting_pool with main := MainPc.ready } : State)
          = { waiting_pool with main := MainPc.ready } ∧
        ({ waiting_pool with main := MainPc.ready } : State).tp.queue.length = 0 ∧
        ({ waiting_pool with main := MainPc.ready } : State).tp.num_threads_working = 0) :=
  ⟨by decide,
    ((wait_returns_iff_quiescent waiting_pool { waiting_pool with main := MainPc.ready } rfl).2
      rfl rfl).2,
    (wait_returns_iff_quiescent waiting_pool { waiting_pool with main := MainPc.ready } rfl).1
      (by decide)⟩

/-! ## Counters -/

/-- C8 counterexample: one worker registers, the constructor returns, the destructor
runs up to and including its own `num_threads--` loop, then the worker leaves its
loop and executes its own `num_threads--`: `num_threads` is `-1`. -/
theorem counter_invariant_fails_after_destructor_loop :
    ¬ (∀ (r : Resources) (threadc : Int) (s0 s : State) (acts : List Action),
        threadpool.create r threadc = Except.ok s0 → run s0 acts = some s →
        0 ≤ s.tp.num_threads_working ∧ s.tp.num_threads_working ≤ s.tp.num_threads) := by
  intro h
  have h1 := h (Resources.ample 1) 1 _ _
    [Action.worker 0, Action.main, Action.destroy, Action.main, Action.main, Action.main,
      Action.worker 0, Action.worker 0] rfl rfl
  revert h1
  decide

/-- C8 as amended: in every state reached from the constructor by any interleaving
of the owner's calls (`add_job`, `wait`, `reset`, the destructor) and worker actions,
`0 <= num_threads_working`, and as long as the destructor has not yet run its own
`num_threads--` loop, `num_threads_working <= num_threads`. -/
theorem working_le_threads_until_destructor_loop (r : Resources) (threadc : Int)
    (s0 s : State) (acts : List Action) (h0 : threadpool.create r threadc = Except.ok s0)
    (hr : run s0 acts = some s) :
    0 ≤ s.tp.num_threads_working ∧
      (s.main.counted = false → s.tp.num_threads_working ≤ s.tp.num_threads) := by
  have h := (PoolInv.pool_create h0).pool_run hr
  constructor
  · rw [h.working_eq]; exact Int.natCast_nonneg _
  · intro hc
    rw [h.working_eq, h.threads_eq hc]
    exact_mod_cast working_le_live s.workers

/-- C8 witness: a two-worker pool in which one worker has marked itself working. -/
theorem working_le_threads_until_destructor_loop_witness :
    run (threadpool.spawned 2) busy_schedule = some busy_pool ∧
      0 ≤ busy_pool.tp.num_threads_working ∧
      busy_pool.tp.num_threads_working ≤ busy_pool.tp.num_threads :=
  ⟨by decide,
    (working_le_threads_until_destructor_loop (Resources.ample 2) 2 (threadpool.spawned 2)
      busy_pool busy_schedule rfl (by decide)).1,
    (working_le_threads_until_destructor_loop (Resources.ample 2) 2 (threadpool.spawned 2)
      busy_pool busy_schedule rfl (by decide)).2 rfl⟩

/-! ## Schedules -/

theorem run_append (s : State) (as bs : List Action) :
    run s (as ++ bs) = (run s as).bind (fun s1 => run s1 bs) := by
  induction as generalizing s with
  | nil => simp [run]
  | cons a as ih =>
    simp only [List.cons_append, run]
    cases step s a with
    | none => simp
    | some s1 => simpa using ih s1

theorem run_register (s : State) (pre : List WorkerPc) (j : Nat)
    (hw : s.workers = pre ++ List.replicate j WorkerPc.start)
    (hq : s.queue_deleted = false) :
    run s ((List.range' pre.length j).map Action.worker)
      = some { s with
          tp := { s.tp with num_threads := s.tp.num_threads + j }
          workers := pre ++ List.replicate j WorkerPc.loop } := by
  induction j generalizing s pre with
  | zero =>
    obtain ⟨tp, m, qd, mn, ws, ex⟩ := s
    simp at hw
    subst hw
    simp [run]
  | succ j ih =>
    have hget : s.workers[pre.length]? = some WorkerPc.start := by
      rw [hw, List.getElem?_append_right (le_refl _)]
      simp [List.replicate_succ]
    have hstep : step s (Action.worker pre.length)
        = some ({ s with tp := { s.tp with num_threads := s.tp.num_threads + 1 } }.goto
            pre.length WorkerPc.loop) := by
      simp [step, thread_work_function, State.use_after_free, hq, hget]
    simp only [List.range'_succ, List.map_cons, run, hstep]
    have hw1 : ({ s with tp := { s.tp with num_threads := s.tp.num_threads + 1 } }.goto
        pre.length WorkerPc.loop).workers
          = (pre ++ [WorkerPc.loop]) ++ List.replicate j WorkerPc.start := by
      simp [State.goto, hw, List.replicate_succ]
    have := ih _ (pre ++ [WorkerPc.loop]) hw1 hq
    simp only [List.length_append, List.length_singleton] at this
    rw [this]
    simp [State.goto, List.replicate_succ, add_assoc, add_comm]
    ring

theorem create_ample (n : Nat) :
    threadpool.create (Resources.ample n) n = Except.ok (threadpool.spawned n) := by
  simp [threadpool.create, Resources.ample]

theorem constructed_eq (n : Nat) : constructed n = some (fresh_pool n) := by
  unfold constructed
  rw [create_ample]
  dsimp only
  rw [List.range_eq_range', run_append]
  have := run_register (threadpool.spawned n) [] n (by simp [threadpool.spawned]) rfl
  simp only [List.length_nil] at this
  rw [this]
  simp [run, step, main_step, threadpool.spawned, fresh_pool]

/-! ## What an action leaves alone -/

theorem worker_step_frame {s s' : State} {i : Nat} (hs : thread_work_function s i = some s') :
    s'.main = s.main ∧ s'.workers.length = s.workers.length ∧
      (s'.executed = s.executed ∨ ∃ c, WorkerPc.got (some c) ∈ s.workers) := by
  unfold thread_work_function at hs
  split at hs
  · simp at hs
  cases hpc : s.workers[i]? with
  | none => simp [hpc] at hs
  | some pc =>
    simp only [hpc] at hs
    cases pc with
    | got current =>
      cases current with
      | none => simp at hs; subst hs; simp [State.goto]
      | some c =>
        dsimp only at hs
        split at hs
        · simp at hs
        · split at hs
          · simp at hs
          · simp at hs; subst hs
            exact ⟨rfl, by simp [State.goto], Or.inr ⟨c, List.getElem?_mem hpc⟩⟩
    | dequeue =>
      dsimp only at hs
      split at hs
      · simp at hs
      · split at hs
        · simp at hs
        · simp at hs; subst hs; simp [State.goto]
    | done => simp at hs
    | await =>
      dsimp only at hs
      split at hs
      · simp at hs
      · split at hs
        · simp at hs
        · simp at hs; subst hs; simp [State.goto]
    | loop =>
      dsimp only at hs
      split at hs <;> (simp at hs; subst hs; simp [State.goto])
    | check_kill =>
      dsimp only at hs
      split at hs <;> (simp at hs; subst hs; simp [State.goto])
    | start => simp at hs; subst hs; simp [State.goto]
    | mark_working => simp at hs; subst hs; simp [State.goto]
    | mark_idle => simp at hs; subst hs; simp [State.goto]
    | leave => simp at hs; subst hs; simp [State.goto]

theorem main_step_frame {s s' : State} (hs : main_step s = some s') :
    s'.workers = s.workers ∧ s'.executed = s.executed ∧ s'.heap = s.heap ∧
      s'.tp.queue = s.tp.queue ∧ (∀ n, s'.main ≠ MainPc.ctor_spin n) ∧
      (s.main.past_wait = true → s'.main.past_wait = true) := by
  unfold main_step at hs
  split at hs
  · split at hs
    · simp at hs
    · simp at hs; subst hs; simp [MainPc.past_wait, *]
  · simp at hs
  · split at hs
    · simp at hs
    · rename_i hw
      obtain ⟨rfl, -, -⟩ := wait_eq_some hw
      simp at hs; subst hs; simp [MainPc.past_wait, *]
  · split at hs
    · simp at hs
    · rename_i hw
      obtain ⟨rfl, -, -⟩ := wait_eq_some hw
      simp at hs; subst hs; simp [MainPc.past_wait, *]
  · split at hs
    · simp at hs
    · rename_i hw
      obtain ⟨rfl, -, -⟩ := wait_eq_some hw
      simp at hs; subst hs; simp [MainPc.past_wait, *]
  · simp at hs; subst hs; simp [MainPc.past_wait, *]
  · simp at hs; subst hs; simp [MainPc.past_wait, *]
  · simp at hs; subst hs; simp [MainPc.past_wait, *]
  · simp at hs

theorem step_frame {s s' : State} {a : Action} (hs : step s a = some s') :
    s'.workers.length = s.workers.length ∧
      (∀ n, s'.main = MainPc.ctor_spin n → s.main = MainPc.ctor_spin n) := by
  cases a with
  | add_job fn =>
    simp only [step] at hs
    split at hs
    · simp [threadpool.add_job] at hs; subst hs; simp [*]
    · simp at hs
  | wait =>
    simp only [step] at hs
    split at hs
    · simp at hs; subst hs; simp
    · simp at hs
  | reset =>
    simp only [step] at hs
    split at hs
    · split at hs
      · simp at hs
      · simp at hs; subst hs; simp
    · simp at hs
  | destroy =>
    simp only [step] at hs
    split at hs
    · split at hs
      · simp at hs
      · simp at hs; subst hs; simp
    · simp at hs
  | main =>
    have := main_step_frame hs
    exact ⟨by rw [this.1], fun n hn => absurd hn (this.2.2.2.2.1 n)⟩
  | worker i =>
    have := worker_step_frame hs
    exact ⟨this.2.1, fun n hn => by rw [← this.1]; exact hn⟩

theorem run_frame {s s' : State} {acts : List Action} (hs : run s acts = some s') :
    s'.workers.length = s.workers.length ∧
      (∀ n, s'.main = MainPc.ctor_spin n → s.main = MainPc.ctor_spin n) := by
  induction acts generalizing s with
  | nil => simp [run] at hs; subst hs; simp
  | cons a as ih =>
    simp only [run] at hs
    split at hs
    · simp at hs
    · rename_i s1 h1
      have h2 := ih hs
      have h3 := step_frame h1
      exact ⟨by rw [h2.1, h3.1], fun n hn => h3.2 n (h2.2 n hn)⟩

theorem step_after_wait {s s' : State} {a : Action} (h : PoolInv s)
    (hp : s.main.past_wait = true) (hs : step s a = some s') :
    s'.executed = s.executed ∧ s'.main.past_wait = true := by
  cases a with
  | add_job fn =>
    simp only [step] at hs
    split at hs
    · rename_i hg; simp [hg.1, MainPc.past_wait] at hp
    · simp at hs
  | wait =>
    simp only [step] at hs
    split at hs
    · rename_i hg; simp [hg, MainPc.past_wait] at hp
    · simp at hs
  | reset =>
    simp only [step] at hs
    split at hs
    · rename_i hg; simp [hg.1, MainPc.past_wait] at hp
    · simp at hs
  | destroy =>
    simp only [step] at hs
    split at hs
    · rename_i hg; simp [hg.1, MainPc.past_wait] at hp
    · simp at hs
  | main =>
    have := main_step_frame hs
    exact ⟨this.2.1, this.2.2.2.2.2 hp⟩
  | worker i =>
    have := worker_step_frame hs
    refine ⟨?_, by rw [this.1]; exact hp⟩
    rcases this.2.2 with he | ⟨c, hc⟩
    · exact he
    · exact absurd hc (h.drained hp c)

theorem run_after_wait {s s' : State} {acts : List Action} (h : PoolInv s)
    (hp : s.main.past_wait = true) (hs : run s acts = some s') :
    s'.executed = s.executed ∧ s'.main.past_wait = true := by
  induction acts generalizing s with
  | nil => simp [run] at hs; subst hs; exact ⟨rfl, hp⟩
  | cons a as ih =>
    simp only [run] at hs
    split at hs
    · simp at hs
    · rename_i s1 h1
      have h2 := step_after_wait h hp h1
      have h3 := ih (h.pool_step h1) h2.2 hs
      exact ⟨by rw [h3.1, h2.1], h3.2⟩

theorem step_enter_past_wait {s s' : State} {a : Action} (hs : step s a = some s')
    (hp : s.main.past_wait = false) (hp' : s'.main.past_wait = true) :
    s'.main = MainPc.dtor_kill ∧ s'.tp.queue.length = 0 ∧ s'.tp.num_threads_working = 0 := by
  cases a with
  | add_job fn =>
    simp only [step] at hs
    split at hs
    · rename_i hg
      simp [threadpool.add_job] at hs; subst hs
      simp [hg.1, MainPc.past_wait] at hp'
    · simp at hs
  | wait =>
    simp only [step] at hs
    split at hs
    · simp at hs; subst hs; simp [MainPc.past_wait] at hp'
    · simp at hs
  | reset =>
    simp only [step] at hs
    split at hs
    · split at hs
      · simp at hs
      · simp at hs; subst hs; simp [MainPc.past_wait] at hp'
    · simp at hs
  | destroy =>
    simp only [step] at hs
    split at hs
    · split at hs
      · simp at hs
      · simp at hs; subst hs; simp [MainPc.past_wait] at hp'
    · simp at hs
  | main =>
    simp only [step, main_step] at hs
    split at hs
    · split at hs
      · simp at hs
      · simp at hs; subst hs; simp [MainPc.past_wait] at hp'
    · simp at hs
    · split at hs
      · simp at hs
      · simp at hs; subst hs; simp [MainPc.past_wait] at hp'
    · split at hs
      · simp at hs
      · simp at hs; subst hs; simp [MainPc.past_wait] at hp'
    · split at hs
      · simp at hs
      · rename_i hw
        obtain ⟨rfl, h0, hw0⟩ := wait_eq_some hw
        simp at hs; subst hs
        exact ⟨rfl, h0, hw0⟩
    · rename_i hm; simp [hm, MainPc.past_wait] at hp
    · rename_i hm; simp [hm, MainPc.past_wait] at hp
    · rename_i hm; simp [hm, MainPc.past_wait] at hp
    · simp at hs
  | worker i =>
    have := worker_step_frame hs
    rw [this.1, hp] at hp'
    simp at hp'

theorem run_split_past_wait {s0 s : State} {acts : List Action} (hr : run s0 acts = some s)
    (hp : s0.main.past_wait = false) (hp' : s.main.past_wait = true) :
    ∃ (pre post : List Action) (sq : State), acts = pre ++ post ∧ run s0 pre = some sq ∧
      run sq post = some s ∧ sq.main = MainPc.dtor_kill ∧ sq.tp.queue.length = 0 ∧
      sq.tp.num_threads_working = 0 := by
  induction acts generalizing s0 with
  | nil =>
    simp [run] at hr; subst hr
    rw [hp] at hp'; simp at hp'
  | cons a as ih =>
    simp only [run] at hr
    split at hr
    · simp at hr
    · rename_i s1 h1
      cases hp1 : s1.main.past_wait with
      | true =>
        have := step_enter_past_wait h1 hp hp1
        exact ⟨[a], as, s1, rfl, by simp [run, h1], hr, this⟩
      | false =>
        obtain ⟨pre, post, sq, hacts, hpre, hpost, hrest⟩ := ih hr hp1
        exact ⟨a :: pre, post, sq, by simp [hacts], by simp [run, h1, hpre], hpost, hrest⟩

theorem step_returned {s s' : State} {a : Action} (hs : step s a = some s')
    (hd : s.main = MainPc.dtor_done) : s'.main = MainPc.dtor_done := by
  cases a with
  | add_job fn => simp [step, hd] at hs
  | wait => simp [step, hd] at hs
  | reset => simp [step, hd] at hs
  | destroy => simp [step, hd] at hs
  | main => simp [step, main_step, hd] at hs
  | worker i => rw [(worker_step_frame hs).1]; exact hd

theorem run_returned {s s' : State} {acts : List Action} (hs : run s acts = some s')
    (hd : s.main = MainPc.dtor_done) : s'.main = MainPc.dtor_done := by
  induction acts generalizing s with
  | nil => simp [run] at hs; subst hs; exact hd
  | cons a as ih =>
    simp only [run] at hs
    split at hs
    · simp at hs
    · rename_i s1 h1
      exact ih hs (step_returned h1 hd)

/-! ## Constructor -/

/-- C6 counterexample: `threadpool(1)` when the system starts no thread: `threadc >= 0`
and the constructor fails, with `std::system_error` out of `std::thread` (line 221). -/
theorem constructor_fails_when_refused_a_thread :
    ¬ (∀ (r : Resources) (threadc : Int),
        ((∃ e, threadpool.create r threadc = Except.error e) ↔ threadc < 0) ∧
        (0 ≤ threadc → ∃ s0, threadpool.create r threadc = Except.ok s0)) := by
  intro h
  have h1 : (1 : Int) < 0 :=
    (h { queue_alloc := true, vector_slots := 1, threads := 0 } 1).1.mp
      ⟨Exception.system_error, rfl⟩
  exact absurd h1 (by decide)

/-- C6 as amended: the constructor throws `std::invalid_argument` exactly when
`threadc < 0`; it fails at all exactly when `threadc < 0` or the system refuses it the
queue, a vector slot or a thread; whenever it gets as far as the spin loop, every
return from that loop happens in a state where `num_threads == threadc` and exactly
the `threadc` workers are live; and for `threadc >= 0`, refused nothing, it does
return once every worker has registered. -/
theorem constructor_fails_iff_negative_or_refused (r : Resources) (threadc : Int) :
    ((∃ w, threadpool.create r threadc = Except.error (Exception.invalid_argument w))
        ↔ threadc < 0) ∧
    ((∃ e, threadpool.create r threadc = Except.error e) ↔
        (threadc < 0 ∨ r.queue_alloc = false ∨ r.vector_slots < threadc.toNat ∨
          r.threads < threadc.toNat)) ∧
    (∀ s0, threadpool.create r threadc = Except.ok s0 →
      s0 = threadpool.spawned threadc ∧ 0 ≤ threadc ∧
      ∀ (acts : List Action) (s s' : State) (n : Int),
        run s0 acts = some s → s.main = MainPc.ctor_spin n →
        step s Action.main = some s' →
          s'.main = MainPc.ready ∧ s'.tp.num_threads = threadc ∧
          (s'.live_workers : Int) = threadc ∧ s'.live_workers = s'.workers.length) ∧
    (0 ≤ threadc →
      threadpool.create (Resources.ample threadc.toNat) threadc
          = Except.ok (threadpool.spawned threadc) ∧
        constructed threadc.toNat = some (fresh_pool threadc.toNat) ∧
        (fresh_pool threadc.toNat).main = MainPc.ready ∧
        (fresh_pool threadc.toNat).tp.num_threads = threadc) := by
  refine ⟨?_, ?_, ?_, ?_⟩
  · unfold threadpool.create
    constructor
    · rintro ⟨w, he⟩
      by_contra hn
      simp only [hn, if_false] at he
      split at he
      · simp at he
      · split at he
        · simp at he
        · split at he <;> simp at he
    · intro h
      exact ⟨"threadc may not be less than 1", by simp [h]⟩
  · unfold threadpool.create
    constructor
    · rintro ⟨e, he⟩
      by_contra hn
      push_neg at hn
      obtain ⟨h1, h2, h3, h4⟩ := hn
      have h2' : r.queue_alloc = true := by simpa using h2
      simp [not_lt.mpr h1, h2', not_lt.mpr h3, not_lt.mpr h4] at he
    · intro h
      by_cases h1 : threadc < 0
      · exact ⟨Exception.invalid_argument "threadc may not be less than 1",
          by rw [if_pos h1]⟩
      · by_cases h2 : r.queue_alloc = false
        · exact ⟨Exception.bad_alloc, by rw [if_neg h1, if_pos h2]⟩
        · by_cases h3 : r.vector_slots < threadc.toNat ∧ r.vector_slots ≤ r.threads
          · exact ⟨Exception.bad_alloc, by rw [if_neg h1, if_neg h2, if_pos h3]⟩
          · have h4 : r.threads < threadc.toNat := by
              rcases h with h | h | h | h
              · exact absurd h h1
              · exact absurd h h2
              · by_contra h5
                exact h3 ⟨h, by omega⟩
              · exact h
            exact ⟨Exception.system_error,
              by rw [if_neg h1, if_neg h2, if_neg h3, if_pos h4]⟩
  · intro s0 hc
    have hnn : 0 ≤ threadc := by
      by_contra hn
      simp [threadpool.create, not_le.mp hn] at hc
    refine ⟨create_eq_spawned hc, hnn, ?_⟩
    intro acts s s' n hr hm hs
    have hinv := (PoolInv.pool_create hc).pool_run hr
    rw [create_eq_spawned hc] at hr
    have hf := run_frame hr
    have hn : n = threadc := by
      have := hf.2 n hm
      simp [threadpool.spawned] at this
      exact this.symm
    subst hn
    simp only [step, main_step, hm] at hs
    split at hs
    · simp at hs
    · rename_i hnum
      simp at hs
      subst hs
      have hnum : s.tp.num_threads = n := by simpa using hnum
      have hlive := hinv.threads_eq (by simp [hm, MainPc.counted])
      have hlen : s.workers.length = n.toNat := by
        rw [hf.1]; simp [threadpool.spawned]
      refine ⟨rfl, hnum, ?_, ?_⟩
      · show (s.live_workers : Int) = n
        rw [← hlive, hnum]
      · show s.live_workers = s.workers.length
        rw [hlen]
        have : (s.live_workers : Int) = n := by rw [← hlive, hnum]
        omega
  · intro h0
    have hcast : ((threadc.toNat : Nat) : Int) = threadc := Int.toNat_of_nonneg h0
    refine ⟨?_, constructed_eq _, rfl, ?_⟩
    · have := create_ample threadc.toNat
      rw [hcast] at this
      exact this
    · simp [fresh_pool, hcast]

/-- C6 witness: `threadpool(2)`, refused nothing, does not throw; once both workers
have registered the owner leaves the spin loop with `num_threads == 2` and two live
workers. -/
theorem constructor_fails_iff_negative_or_refused_witness :
    threadpool.create (Resources.ample 2) 2 = Except.ok (threadpool.spawned 2) ∧
      constructed 2 = some (fresh_pool 2) ∧
      ((fresh_pool 2).main = MainPc.ready ∧ (fresh_pool 2).tp.num_threads = 2 ∧
        ((fresh_pool 2).live_workers : Int) = 2 ∧
        (fresh_pool 2).live_workers = (fresh_pool 2).workers.length) :=
  ⟨((constructor_fails_iff_negative_or_refused (Resources.ample 2) 2).2.2.2 (by decide)).1,
    ((constructor_fails_iff_negative_or_refused (Resources.ample 2) 2).2.2.2 (by decide)).2.1,
    ((constructor_fails_iff_negative_or_refused (Resources.ample 2) 2).2.2.1
      (threadpool.spawned 2) rfl).2.2
      [Action.worker 0, Action.worker 1]
      { fresh_pool 2 with main := MainPc.ctor_spin 2 } (fresh_pool 2) 2
      (by decide) rfl (by decide)⟩

/-! ## Destructor -/

/-- C5 counterexample: in a one-worker pool the worker registers and is not scheduled
again; the constructor returns and the destructor then runs to its return, while the
worker still stands at the head of its loop. -/
theorem destructor_returns_with_live_worker :
    ¬ (∀ (r : Resources) (threadc : Int) (s0 s : State) (acts : List Action),
        threadpool.create r threadc = Except.ok s0 → run s0 acts = some s →
        s.main = MainPc.dtor_done → ∀ w ∈ s.workers, w = WorkerPc.done) := by
  intro h
  have h1 := h (Resources.ample 1) 1 (threadpool.spawned 1) destroyed_pool destroy_schedule
    rfl (by decide) rfl WorkerPc.loop (by decide)
  exact absurd h1 (by decide)

/-- C5 as amended: in every execution in which the destructor has returned, the
`wait()` of its `reset()` returned at an earlier point `sq` of that execution with
`length == 0` and `num_threads_working == 0`, no callable has been run between that
point and the return, no worker holds a dequeued job at the return, and the destructor
returns with `threads_alive == 0` and the queue deleted.  Nothing is said of what a
worker still live does after the return. -/
theorem destructor_returns_after_quiescence (r : Resources) (threadc : Int) (s0 s : State)
    (acts : List Action) (h0 : threadpool.create r threadc = Except.ok s0)
    (hr : run s0 acts = some s) (hd : s.main = MainPc.dtor_done) :
    s.tp.threads_alive = 0 ∧ s.queue_deleted = true ∧
      (∀ c, WorkerPc.got (some c) ∉ s.workers) ∧
      ∃ (pre post : List Action) (sq : State), acts = pre ++ post ∧ run s0 pre = some sq ∧
        run sq post = some s ∧ sq.main = MainPc.dtor_kill ∧ sq.tp.queue.length = 0 ∧
        sq.tp.num_threads_working = 0 ∧ s.executed = sq.executed := by
  have h := (PoolInv.pool_create h0).pool_run hr
  have hp : s.main.past_wait = true := by simp [hd, MainPc.past_wait]
  have hp0 : s0.main.past_wait = false := by
    rw [create_eq_spawned h0]; rfl
  obtain ⟨pre, post, sq, hacts, hpre, hpost, hm, hl, hw⟩ := run_split_past_wait hr hp0 hp
  have hsq := (PoolInv.pool_create h0).pool_run hpre
  have hex := run_after_wait hsq (by simp [hm, MainPc.past_wait]) hpost
  exact ⟨by simpa [hd, MainPc.killed] using h.alive_eq,
    by simpa [hd, MainPc.returned] using h.deleted_eq, h.drained hp,
    pre, post, sq, hacts, hpre, hpost, hm, hl, hw, hex.1⟩

/-- C5 witness: the run of `destroy_schedule` on a one-worker pool; the next action of
the worker, still at the head of its loop, would be a use after free. -/
theorem destructor_returns_after_quiescence_witness :
    run (threadpool.spawned 1) destroy_schedule = some destroyed_pool ∧
      destroyed_pool.use_after_free 0 = true ∧
      destroyed_pool.tp.threads_alive = 0 ∧ destroyed_pool.queue_deleted = true ∧
      (∀ c, WorkerPc.got (some c) ∉ destroyed_pool.workers) :=
  ⟨by decide, by decide,
    (destructor_returns_after_quiescence (Resources.ample 1) 1 (threadpool.spawned 1)
      destroyed_pool destroy_schedule rfl (by decide) rfl).1,
    (destructor_returns_after_quiescence (Resources.ample 1) 1 (threadpool.spawned 1)
      destroyed_pool destroy_schedule rfl (by decide) rfl).2.1,
    (destructor_returns_after_quiescence (Resources.ample 1) 1 (threadpool.spawned 1)
      destroyed_pool destroy_schedule rfl (by decide) rfl).2.2.1⟩

/-! ## Defects of the queue, evaluated -/

/-- C1 (what the code does): a one-worker pool is given job 1 and then job 2 with no
dequeue in between; the worker's first pass runs job 2 and its second pass runs job 1,
because `push` links the new job in front of `head`. -/
theorem add_job_runs_latest_first :
    ((constructed 1).bind (fun s =>
        run s ([Action.add_job 1, Action.add_job 2] ++ worker_pass 0 ++ worker_pass 0))).map
      (fun s => s.executed) = some [2, 1] := by
  decide

/-- C3 (what the code does): on an empty queue `clear()` returns with the mutex held;
on a queue of one job it returns with the mutex held, `length` still 1 and `head`
still pointing at the job it has just deleted. -/
theorem clear_early_returns_keep_mutex :
    threadpool_queue.new.clear Heap.empty
        = some ({ length := 0, lock := true, head := none }, Heap.empty) ∧
      (threadpool_queue.new.add_job Heap.empty 7).1.clear
          (threadpool_queue.new.add_job Heap.empty 7).2
        = some ({ length := 1, lock := true, head := some 0 },
            { cells := [{ function := 7, next := none }], freed := [0] }) := by
  decide

/-- C10 (what the code does): with job 1 submitted before job 2 the chain is
`2 -> 1`.  `destroy_all_jobs` on that chain deletes the node of job 2 (address 1) and
leaves the last node (address 0) allocated; `clear()` on that queue empties it and
deletes no node at all. -/
theorem clear_leaks_jobs :
    threadpool_queue.destroy_all_jobs 3
        ((threadpool_queue.new.add_job Heap.empty 1).1.add_job
          (threadpool_queue.new.add_job Heap.empty 1).2 2).2 (some 1)
        = some { cells := [{ function := 1, next := none }, { function := 2, next := some 0 }],
                 freed := [1] } ∧
      ((threadpool_queue.new.add_job Heap.empty 1).1.add_job
          (threadpool_queue.new.add_job Heap.empty 1).2 2).1.clear
        ((threadpool_queue.new.add_job Heap.empty 1).1.add_job
          (threadpool_queue.new.add_job Heap.empty 1).2 2).2
        = some ({ length := 0, lock := false, head := none },
            { cells := [{ function := 1, next := none }, { function := 2, next := some 0 }],
              freed := [] }) := by
  decide

/-! ## reset() on a queue of one job -/

theorem step_stuck {s s' : State} {a : Action} (hs : step s a = some s')
    (hm : s.main = MainPc.reset_wait) (hl : s.tp.queue.lock = true)
    (hn : s.tp.queue.length ≠ 0) :
    s'.main = MainPc.reset_wait ∧ s'.tp.queue = s.tp.queue := by
  cases a with
  | add_job fn => simp [step, hm] at hs
  | wait => simp [step, hm] at hs
  | reset => simp [step, hm] at hs
  | destroy => simp [step, hm] at hs
  | main => simp [step, main_step, hm, threadpool.wait, hn] at hs
  | worker i =>
    simp only [step, thread_work_function] at hs
    split at hs
    · simp at hs
    cases hpc : s.workers[i]? with
    | none => simp [hpc] at hs
    | some pc =>
      simp only [hpc] at hs
      cases pc with
      | got current =>
        cases current with
        | none => simp at hs; subst hs; simp [State.goto, hm]
        | some c =>
          dsimp only at hs
          split at hs
          · simp at hs
          · split at hs
            · simp at hs
            · simp at hs; subst hs; simp [State.goto, hm]
      | dequeue => simp [hl] at hs
      | await => simp [hl] at hs
      | done => simp at hs
      | loop =>
        dsimp only at hs
        split at hs <;> (simp at hs; subst hs; simp [State.goto, hm])
      | check_kill =>
        dsimp only at hs
        split at hs <;> (simp at hs; subst hs; simp [State.goto, hm])
      | start => simp at hs; subst hs; simp [State.goto, hm]
      | mark_working => simp at hs; subst hs; simp [State.goto, hm]
      | mark_idle => simp at hs; subst hs; simp [State.goto, hm]
      | leave => simp at hs; subst hs; simp [State.goto, hm]

theorem run_stuck {s s' : State} {acts : List Action} (hs : run s acts = some s')
    (hm : s.main = MainPc.reset_wait) (hl : s.tp.queue.lock = true)
    (hn : s.tp.queue.length ≠ 0) :
    s'.main = MainPc.reset_wait ∧ s'.tp.queue = s.tp.queue := by
  induction acts generalizing s with
  | nil => simp [run] at hs; subst hs; exact ⟨hm, rfl⟩
  | cons a as ih =>
    simp only [run] at hs
    split at hs
    · simp at hs
    · rename_i s1 h1
      have h2 := step_stuck h1 hm hl hn
      have h3 := ih hs h2.1 (by rw [h2.2]; exact hl) (by rw [h2.2]; exact hn)
      exact ⟨h3.1, by rw [h3.2, h2.2]⟩

theorem reset_returns_on_zero_and_two_jobs :
    (threadpool.reset (fresh_pool 1).tp (fresh_pool 1).heap).isSome = true ∧
      ((run (fresh_pool 1) [Action.add_job 7, Action.add_job 8, Action.reset, Action.main]).map
        (fun s => (s.main, s.tp.queue.length, s.executed))) = some (MainPc.ready, 0, []) := by
  decide

/-- C4 (what the code does): a one-worker pool holds one queued job, not dequeued, and
no worker is working; the owner calls `reset()`.  Run alone `reset()` does not return,
and in the program, whatever is scheduled afterwards, the owner stays inside the
`wait()` of `reset()` for ever, with `length == 1` and the queue mutex held. -/
theorem reset_with_one_job_never_returns (acts : List Action) (s : State)
    (hr : run (fresh_pool 1) (Action.add_job 7 :: Action.reset :: acts) = some s) :
    threadpool.reset ((fresh_pool 1).tp.add_job (fresh_pool 1).heap 7).1
        ((fresh_pool 1).tp.add_job (fresh_pool 1).heap 7).2 = none ∧
      s.main = MainPc.reset_wait ∧ s.tp.queue.length = 1 ∧ s.tp.queue.lock = true := by
  have h1 : run (fresh_pool 1) [Action.add_job 7, Action.reset] = some stuck_pool := by decide
  have h2 : run (fresh_pool 1) (Action.add_job 7 :: Action.reset :: acts)
      = run stuck_pool acts := by
    have := run_append (fresh_pool 1) [Action.add_job 7, Action.reset] acts
    simpa [h1] using this
  rw [h2] at hr
  have h3 := run_stuck hr rfl rfl (by decide)
  refine ⟨by decide, h3.1, ?_, ?_⟩
  · rw [h3.2]; rfl
  · rw [h3.2]; rfl

/-- C4 witness: after `add_job` and `reset()` the worker makes the one move left to it
(its outer loop test) and the pool is as described. -/
theorem reset_with_one_job_never_returns_witness :
    run (fresh_pool 1) [Action.add_job 7, Action.reset, Action.worker 0]
        = some { stuck_pool with workers := [WorkerPc.await] } ∧
      ({ stuck_pool with workers := [WorkerPc.await] } : State).main = MainPc.reset_wait :=
  ⟨by decide,
    (reset_with_one_job_never_returns [Action.worker 0]
      { stuck_pool with workers := [WorkerPc.await] } (by decide)).2.1⟩


/-! ## The free store and chains of jobs -/

theorem read_lt {m : Heap} {a : Nat} {node : threadpool_job} (h : m.read a = some node) :
    a < m.cells.length := by
  unfold Heap.read at h
  split at h
  · simp at h
  · by_contra hlt
    rw [List.getElem?_eq_none (by omega)] at h
    simp at h

theorem read_new_job_old (m : Heap) (fn a : Nat) (h : a < m.cells.length) :
    (m.new_job fn).2.read a = m.read a := by
  simp [Heap.read, Heap.new_job, List.getElem?_append_left h]

theorem read_new_job_new (m : Heap) (fn : Nat) (h : m.cells.length ∉ m.freed) :
    (m.new_job fn).2.read m.cells.length = some { function := fn, next := none } := by
  simp [Heap.read, Heap.new_job, h]

theorem read_set_next_ne (m : Heap) (j a : Nat) (p : Option Nat) (h : j ≠ a) :
    (m.set_next j p).read a = m.read a := by
  simp [Heap.read, Heap.set_next, List.getElem?_modify_ne _ _ h]

theorem read_set_next_eq (m : Heap) (j : Nat) (p : Option Nat) (node : threadpool_job)
    (h : m.read j = some node) :
    (m.set_next j p).read j = some { node with next := p } := by
  unfold Heap.read at h ⊢
  simp only [Heap.set_next]
  split at h
  · simp at h
  · rename_i hf
    simp [hf, h]

theorem delete_eq_some {m m1 : Heap} {a : Nat} (h : m.delete a = some m1) :
    m1 = { m with freed := a :: m.freed } ∧ ∃ node, m.read a = some node := by
  unfold Heap.delete at h
  split at h
  · simp at h
  · rename_i node hr
    simp at h
    exact ⟨h.symm, node, hr⟩

theorem read_delete_ne (m : Heap) (c a : Nat) (h : a ≠ c) :
    ({ m with freed := c :: m.freed } : Heap).read a = m.read a := by
  simp [Heap.read, h]

theorem IsChain.congr {m m' : Heap} {p : Option Nat} {l : List (Nat × Nat)}
    (h : IsChain m p l) (hr : ∀ a ∈ l.map Prod.fst, m'.read a = m.read a) :
    IsChain m' p l := by
  induction l generalizing p with
  | nil => exact h
  | cons x l ih =>
    obtain ⟨a, f⟩ := x
    obtain ⟨hp, nx, hread, hrest⟩ := h
    refine ⟨hp, nx, ?_, ih hrest (fun b hb => hr b (by simp at hb ⊢; exact Or.inr hb))⟩
    rw [hr a (by simp)]
    exact hread

theorem IsChain.lt {m : Heap} {p : Option Nat} {l : List (Nat × Nat)}
    (h : IsChain m p l) : ∀ a ∈ l.map Prod.fst, a < m.cells.length := by
  induction l generalizing p with
  | nil => simp
  | cons x l ih =>
    obtain ⟨a, f⟩ := x
    obtain ⟨hp, nx, hread, hrest⟩ := h
    intro b hb
    simp only [List.map_cons, List.mem_cons] at hb
    rcases hb with rfl | hb
    · exact read_lt hread
    · exact ih hrest b hb

theorem IsChain.nil_iff {m : Heap} {p : Option Nat} {l : List (Nat × Nat)}
    (h : IsChain m p l) : l = [] ↔ p = none := by
  cases l with
  | nil => simpa using h
  | cons x l =>
    obtain ⟨a, f⟩ := x
    obtain ⟨hp, -⟩ := h
    simp [hp]

theorem chain_eq_of_isChain {m : Heap} {p : Option Nat} {l : List (Nat × Nat)}
    (h : IsChain m p l) (fuel : Nat) (hf : l.length ≤ fuel) :
    m.chain fuel p = l.map Prod.fst := by
  induction l generalizing p fuel with
  | nil =>
    have : p = none := h
    subst this
    cases fuel <;> simp [Heap.chain]
  | cons x l ih =>
    obtain ⟨a, f⟩ := x
    obtain ⟨hp, nx, hread, hrest⟩ := h
    subst hp
    cases fuel with
    | zero => simp at hf
    | succ fuel =>
      simp only [Heap.chain, hread, List.map_cons]
      rw [ih hrest fuel (by simpa using hf)]

theorem nodup_length_le {l : List Nat} {n : Nat} (hn : l.Nodup) (hl : ∀ a ∈ l, a < n) :
    l.length ≤ n := by
  have hsub : l ⊆ List.range n := fun a ha => List.mem_range.mpr (hl a ha)
  have := (List.subperm_of_subset hn hsub).length_le
  simpa using this


/-! ## add_job and dequeue on a well-formed queue -/

theorem add_job_chain {q : threadpool_queue} {m : Heap} {l : List (Nat × Nat)} (fn : Nat)
    (hc : IsChain m q.head l) (hlen : q.length = l.length)
    (hfresh : ∀ a ∈ m.freed, a < m.cells.length) (hmax : q.length < INT_MAX) :
    IsChain (q.add_job m fn).2 (q.add_job m fn).1.head ((m.cells.length, fn) :: l) ∧
      (q.add_job m fn).1.length = ((l.length + 1 : Nat) : Int) ∧
      (∀ a, a < m.cells.length → (q.add_job m fn).2.read a = m.read a) ∧
      (q.add_job m fn).2.freed = m.freed ∧
      (q.add_job m fn).2.cells.length = m.cells.length + 1 := by
  have hnf : m.cells.length ∉ m.freed := fun hin => absurd (hfresh _ hin) (lt_irrefl _)
  have hnew := read_new_job_new m fn hnf
  have hold := read_new_job_old m fn
  have hwrap : wrap_int (q.length + 1) = ((l.length + 1 : Nat) : Int) := by
    unfold INT_MAX at hmax
    rw [wrap_int_of_range (by omega) (by omega), hlen]
    push_cast
    rfl
  unfold threadpool_queue.add_job
  by_cases h0 : q.length = 0
  · have hl : l = [] := by
      rw [h0] at hlen
      exact List.length_eq_zero.mp (by exact_mod_cast hlen.symm)
    subst hl
    simp only [h0, if_true]
    refine ⟨⟨rfl, none, hnew, rfl⟩, h0 ▸ hwrap, hold, by simp [Heap.new_job],
      by simp [Heap.new_job]⟩
  · simp only [h0, if_false]
    cases l with
    | nil => simp at hlen; exact absurd hlen h0
    | cons x l =>
      obtain ⟨a, f⟩ := x
      have hc' := hc
      obtain ⟨hp, nx, hread, hrest⟩ := hc
      have hlt := hc'.lt
      simp only [threadpool_queue.push, hp]
      refine ⟨⟨rfl, some a, ?_, ⟨rfl, nx, ?_, ?_⟩⟩, ?_, ?_,
        by simp [Heap.new_job, Heap.set_next],
        by simp [Heap.new_job, Heap.set_next]⟩
      · exact read_set_next_eq _ _ _ _ hnew
      · have ha : a < m.cells.length := hlt a (by simp)
        rw [read_set_next_ne _ _ _ _ (by simp [Heap.new_job]; omega), hold a ha]
        exact hread
      · apply hrest.congr
        intro b hb
        have hb' : b < m.cells.length := hlt b (by simp at hb ⊢; exact Or.inr hb)
        rw [read_set_next_ne _ _ _ _ (by simp [Heap.new_job]; omega), hold b hb']
      · exact hwrap
      · intro b hb
        rw [read_set_next_ne _ _ _ _ (by simp [Heap.new_job]; omega), hold b hb]

theorem dequeue_chain {q : threadpool_queue} {m : Heap} {l : List (Nat × Nat)}
    (hc : IsChain m q.head l) (hlen : q.length = l.length)
    (hmax : (l.length : Int) ≤ INT_MAX) :
    (l = [] ∧ q.dequeue m = some (q, none)) ∨
      (∃ a f l' q', l = (a, f) :: l' ∧ q.dequeue m = some (q', some a) ∧
        IsChain m q'.head l' ∧ q'.length = l'.length ∧ q'.lock = q.lock) := by
  cases l with
  | nil =>
    left
    have hp : q.head = none := hc
    simp [threadpool_queue.dequeue, hlen, hp]
  | cons x l =>
    right
    obtain ⟨a, f⟩ := x
    obtain ⟨hp, nx, hread, hrest⟩ := hc
    have h0 : q.length ≠ 0 := by rw [hlen]; simp; omega
    cases l with
    | nil =>
      have h1 : q.length = 1 := by rw [hlen]; simp
      exact ⟨a, f, [], { q with head := none, length := 0 }, rfl,
        by simp [threadpool_queue.dequeue, h1, hp], rfl, by simp, rfl⟩
    | cons y l =>
      have h1 : q.length ≠ 1 := by rw [hlen]; simp; omega
      have hwrap : wrap_int (q.length - 1) = ((y :: l).length : Int) := by
        unfold INT_MAX at hmax
        simp only [List.length_cons] at hlen hmax ⊢
        rw [wrap_int_of_range (by omega) (by omega), hlen]
        push_cast
        ring
      refine ⟨a, f, y :: l, { q with head := nx, length := wrap_int (q.length - 1) }, rfl, ?_,
        hrest, hwrap, rfl⟩
      simp [threadpool_queue.dequeue, h0, h1, hp, hread]

theorem filterMap_held_cons (w : WorkerPc) (ws : List WorkerPc) :
    (w :: ws).filterMap WorkerPc.held = w.held.toList ++ ws.filterMap WorkerPc.held := by
  simp only [List.filterMap_cons]
  cases w.held <;> simp

theorem in_flight_set (ws : List WorkerPc) (i : Nat) (pc pc' : WorkerPc)
    (h : ws[i]? = some pc) :
    (pc.held.toList ++ (ws.set i pc').filterMap WorkerPc.held).Perm
      (pc'.held.toList ++ ws.filterMap WorkerPc.held) := by
  induction ws generalizing i with
  | nil => simp at h
  | cons w ws ih =>
    cases i with
    | zero =>
      simp at h
      subst h
      simp only [List.set_cons_zero, filterMap_held_cons]
      rw [← List.append_assoc, ← List.append_assoc]
      exact List.Perm.append_right _ List.perm_append_comm
    | succ i =>
      simp at h
      simp only [List.set_cons_succ, filterMap_held_cons]
      have := ih i h
      calc pc.held.toList ++ (w.held.toList ++ (ws.set i pc').filterMap WorkerPc.held)
          _ = (pc.held.toList ++ w.held.toList) ++ (ws.set i pc').filterMap WorkerPc.held := by
            rw [List.append_assoc]
          _ |>.Perm ((w.held.toList ++ pc.held.toList) ++ (ws.set i pc').filterMap WorkerPc.held) :=
            List.Perm.append_right _ List.perm_append_comm
          _ = w.held.toList ++ (pc.held.toList ++ (ws.set i pc').filterMap WorkerPc.held) := by
            rw [List.append_assoc]
          _ |>.Perm (w.held.toList ++ (pc'.held.toList ++ ws.filterMap WorkerPc.held)) :=
            List.Perm.append_left _ this
          _ = (w.held.toList ++ pc'.held.toList) ++ ws.filterMap WorkerPc.held := by
            rw [List.append_assoc]
          _ |>.Perm ((pc'.held.toList ++ w.held.toList) ++ ws.filterMap WorkerPc.held) :=
            List.Perm.append_right _ List.perm_append_comm
          _ = pc'.held.toList ++ (w.held.toList ++ ws.filterMap WorkerPc.held) := by
            rw [List.append_assoc]


/-! ## The queue invariant is preserved while the owner neither resets nor destroys -/

theorem QueueInv.of_eq {s s' : State} {l : List (Nat × Nat)} (h : QueueInv s l)
    (hh : s'.heap = s.heap) (hq : s'.tp.queue = s.tp.queue) (hw : s'.workers = s.workers) :
    QueueInv s' l := by
  refine ⟨?_, ?_, ?_, ?_, ?_, h.bound⟩
  · rw [hh, hq]; exact h.chain
  · rw [hq]; exact h.length_eq
  · simp only [State.in_flight, hw]; exact h.nodup
  · simp only [State.in_flight, hw, hh]; exact h.live
  · rw [hh]; exact h.freed_lt

theorem QueueInv.goto_idle {s : State} {l : List (Nat × Nat)} {i : Nat} {pc pc' : WorkerPc}
    (h : QueueInv s l) (hpc : s.workers[i]? = some pc) (h1 : pc.held = none)
    (h2 : pc'.held = none) (tp : threadpool) (hq : tp.queue = s.tp.queue) :
    QueueInv ({ s with tp := tp }.goto i pc') l := by
  have hperm := in_flight_set s.workers i pc pc' hpc
  simp only [h1, h2, Option.toList, List.nil_append] at hperm
  refine ⟨?_, ?_, ?_, ?_, ?_, h.bound⟩
  · simp only [State.goto, hq]; exact h.chain
  · simp only [State.goto, hq]; exact h.length_eq
  · simp only [State.goto, State.in_flight]
    exact (List.Perm.nodup_iff (List.Perm.append_left _ hperm)).mpr h.nodup
  · intro a ha
    simp only [State.goto, State.in_flight] at ha ⊢
    exact h.live a (hperm.mem_iff.mp ha)
  · simp only [State.goto]; exact h.freed_lt

theorem QueueInv.queue_worker_step {s s' : State} {l : List (Nat × Nat)} {i : Nat}
    (h : QueueInv s l) (hs : thread_work_function s i = some s') : ∃ l', QueueInv s' l' := by
  unfold didi.thread_work_function at hs
  split at hs
  · simp at hs
  cases hpc : s.workers[i]? with
  | none => simp [hpc] at hs
  | some pc =>
    simp only [hpc] at hs
    cases pc with
    | start =>
      simp at hs; subst hs
      exact ⟨l, h.goto_idle hpc rfl (by rfl) _ rfl⟩
    | loop =>
      dsimp only at hs
      split at hs <;> (simp at hs; subst hs)
      · exact ⟨l, h.goto_idle hpc rfl (by rfl) s.tp rfl⟩
      · exact ⟨l, h.goto_idle hpc rfl (by rfl) s.tp rfl⟩
    | await =>
      dsimp only at hs
      split at hs
      · simp at hs
      · split at hs
        · simp at hs
        · simp at hs; subst hs
          exact ⟨l, h.goto_idle hpc rfl (by rfl) s.tp rfl⟩
    | check_kill =>
      dsimp only at hs
      split at hs <;> (simp at hs; subst hs)
      · exact ⟨l, h.goto_idle hpc rfl (by rfl) s.tp rfl⟩
      · exact ⟨l, h.goto_idle hpc rfl (by rfl) s.tp rfl⟩
    | mark_working =>
      simp at hs; subst hs
      exact ⟨l, h.goto_idle hpc rfl (by rfl) _ rfl⟩
    | dequeue =>
      dsimp only at hs
      split at hs
      · simp at hs
      · rcases dequeue_chain h.chain h.length_eq h.bound with
          ⟨hl, hd⟩ | ⟨a, f, l', q', hl, hd, hc', hlen', -⟩
        · simp [hd] at hs; subst hs
          exact ⟨l, h.goto_idle hpc rfl (by rfl) _ rfl⟩
        · simp [hd] at hs; subst hs
          have hperm := in_flight_set s.workers i WorkerPc.dequeue (WorkerPc.got (some a)) hpc
          simp only [WorkerPc.held, Option.toList, List.nil_append, List.singleton_append]
            at hperm
          have hnd := h.nodup
          rw [hl] at hnd
          simp only [List.map_cons] at hnd
          have hperm2 : (List.map Prod.fst l' ++
              (s.workers.set i (WorkerPc.got (some a))).filterMap WorkerPc.held).Perm
              (a :: (List.map Prod.fst l' ++ s.in_flight)) :=
            (List.Perm.append_left _ hperm).trans List.perm_middle
          have hbd : (l'.length : Int) ≤ INT_MAX := by
            have := h.bound
            rw [hl] at this
            simp only [List.length_cons] at this
            omega
          refine ⟨l', ⟨hc', hlen', ?_, ?_, h.freed_lt, hbd⟩⟩
          · simp only [State.goto, State.in_flight]
            exact (List.Perm.nodup_iff hperm2).mpr (by simpa using hnd)
          · intro b hb
            simp only [State.goto, State.in_flight] at hb ⊢
            rcases List.mem_cons.mp (hperm.mem_iff.mp hb) with rfl | hb
            · have hch := h.chain
              rw [hl] at hch
              obtain ⟨-, nx, hread, -⟩ := hch
              exact ⟨_, hread⟩
            · exact h.live b hb
    | got current =>
      cases current with
      | none =>
        simp at hs; subst hs
        exact ⟨l, h.goto_idle hpc rfl (by rfl) _ rfl⟩
      | some c =>
        dsimp only at hs
        cases hr : s.heap.read c with
        | none => simp [hr] at hs
        | some node =>
          cases hdel : s.heap.delete c with
          | none => simp [hr, hdel] at hs
          | some m1 =>
            simp [hr, hdel] at hs; subst hs
            obtain ⟨rfl, -⟩ := delete_eq_some hdel
            have hperm := in_flight_set s.workers i (WorkerPc.got (some c)) WorkerPc.mark_idle hpc
            simp only [WorkerPc.held, Option.toList, List.nil_append, List.singleton_append]
              at hperm
            have hnd : (List.map Prod.fst l ++
                c :: (s.workers.set i WorkerPc.mark_idle).filterMap WorkerPc.held).Nodup :=
              (List.Perm.nodup_iff (List.Perm.append_left _ hperm)).mpr h.nodup
            have hnd2 := (List.Perm.nodup_iff List.perm_middle).mp hnd
            have hc_notin := (List.nodup_cons.mp hnd2).1
            refine ⟨l, ⟨?_, h.length_eq, ?_, ?_, ?_, h.bound⟩⟩
            · apply h.chain.congr
              intro b hb
              apply read_delete_ne
              rintro rfl
              exact hc_notin (List.mem_append_left _ hb)
            · simp only [State.goto, State.in_flight]
              exact (List.nodup_cons.mp hnd2).2
            · intro b hb
              simp only [State.goto, State.in_flight] at hb ⊢
              have hbc : b ≠ c := by
                rintro rfl
                exact hc_notin (List.mem_append_right _ hb)
              rw [read_delete_ne _ _ _ hbc]
              exact h.live b (hperm.mem_iff.mp (List.mem_cons_of_mem _ hb))
            · intro b hb
              simp only [State.goto, List.mem_cons] at hb ⊢
              rcases hb with rfl | hb
              · exact read_lt hr
              · exact h.freed_lt b hb
    | mark_idle =>
      simp at hs; subst hs
      exact ⟨l, h.goto_idle hpc rfl (by rfl) _ rfl⟩
    | leave =>
      simp at hs; subst hs
      exact ⟨l, h.goto_idle hpc rfl (by rfl) _ rfl⟩
    | done => simp at hs

theorem QueueInv.queue_add_job {s : State} {l : List (Nat × Nat)} (h : QueueInv s l) (fn : Nat)
    (hmax : s.tp.queue.length < INT_MAX) :
    QueueInv { s with tp := (s.tp.add_job s.heap fn).1, heap := (s.tp.add_job s.heap fn).2 }
      ((s.heap.cells.length, fn) :: l) := by
  obtain ⟨hc, hlen, hread, hfreed, hcells⟩ :=
    add_job_chain fn h.chain h.length_eq h.freed_lt hmax
  have hlt := h.chain.lt
  have hbd : (((s.heap.cells.length, fn) :: l).length : Int) ≤ INT_MAX := by
    have := h.length_eq
    simp only [List.length_cons]
    push_cast
    omega
  refine ⟨hc, hlen, ?_, ?_, ?_, hbd⟩
  · simp only [List.map_cons, List.cons_append, State.in_flight]
    refine List.nodup_cons.mpr ⟨?_, h.nodup⟩
    intro hin
    rcases List.mem_append.mp hin with hin | hin
    · exact absurd (hlt _ hin) (lt_irrefl _)
    · obtain ⟨node, hn⟩ := h.live _ hin
      exact absurd (read_lt hn) (lt_irrefl _)
  · intro a ha
    obtain ⟨node, hn⟩ := h.live a ha
    exact ⟨node, by
      show (s.tp.queue.add_job s.heap fn).2.read a = some node
      rw [hread a (read_lt hn)]; exact hn⟩
  · intro a ha
    show a < (s.tp.queue.add_job s.heap fn).2.cells.length
    rw [hcells]
    have : a ∈ s.heap.freed := by rw [← hfreed]; exact ha
    exact Nat.lt_succ_of_lt (h.freed_lt a this)

theorem QueueInv.queue_step {s s' : State} {l : List (Nat × Nat)} {a : Action}
    (h : QueueInv s l) (ha : a.keeps_jobs = true)
    (hmax : ∀ fn, a = Action.add_job fn → s.tp.queue.length < INT_MAX)
    (hs : step s a = some s') :
    ∃ l', QueueInv s' l' := by
  cases a with
  | add_job fn =>
    simp only [didi.step] at hs
    split at hs
    · simp at hs; subst hs
      exact ⟨_, h.queue_add_job fn (hmax fn rfl)⟩
    · simp at hs
  | wait =>
    simp only [didi.step] at hs
    split at hs
    · simp at hs; subst hs
      exact ⟨l, h.of_eq rfl rfl rfl⟩
    · simp at hs
  | reset => simp [Action.keeps_jobs] at ha
  | destroy => simp [Action.keeps_jobs] at ha
  | main =>
    have hf := main_step_frame hs
    exact ⟨l, h.of_eq hf.2.2.1 hf.2.2.2.1 hf.1⟩
  | worker i => exact h.queue_worker_step hs

theorem QueueInv.queue_spawned (threadc : Int) : QueueInv (threadpool.spawned threadc) [] := by
  refine ⟨rfl, rfl, ?_, ?_, ?_, by decide⟩
  · simp only [State.in_flight, threadpool.spawned, List.map_nil, List.nil_append]
    have : (List.replicate threadc.toNat WorkerPc.start).filterMap WorkerPc.held = [] := by
      rw [List.filterMap_eq_nil_iff]
      intro w hw
      rw [List.eq_of_mem_replicate hw]
      rfl
    rw [this]
    exact List.nodup_nil
  · intro a ha
    have : (List.replicate threadc.toNat WorkerPc.start).filterMap WorkerPc.held = [] := by
      rw [List.filterMap_eq_nil_iff]
      intro w hw
      rw [List.eq_of_mem_replicate hw]
      rfl
    simp only [State.in_flight, threadpool.spawned, this] at ha
    simp at ha
  · simp [threadpool.spawned, Heap.empty]

theorem QueueInv.queue_run {s s' : State} {l : List (Nat × Nat)} {acts : List Action}
    (h : QueueInv s l) (ha : ∀ a ∈ acts, a.keeps_jobs = true)
    (hov : no_overflow s acts = true) (hs : run s acts = some s') :
    ∃ l', QueueInv s' l' := by
  induction acts generalizing s l with
  | nil => simp [didi.run] at hs; subst hs; exact ⟨l, h⟩
  | cons a as ih =>
    simp only [didi.run] at hs
    split at hs
    · simp at hs
    · rename_i s1 h1
      simp only [no_overflow, h1, Bool.and_eq_true] at hov
      have hmax : ∀ fn, a = Action.add_job fn → s.tp.queue.length < INT_MAX := by
        intro fn hfn
        subst hfn
        simpa using hov.1
      obtain ⟨l1, hl1⟩ := h.queue_step (ha a (by simp)) hmax h1
      exact ih hl1 (fun b hb => ha b (by simp [hb])) hov.2 hs


theorem QueueInv.length_eq_reachable {s : State} {l : List (Nat × Nat)} (h : QueueInv s l) :
    s.tp.queue.length = (s.tp.queue.reachable s.heap : Nat) ∧
      (s.tp.queue.length = 0 ↔ s.tp.queue.head = none) := by
  have hnd : (l.map Prod.fst).Nodup := (List.nodup_append.mp h.nodup).1
  have hle : (l.map Prod.fst).length ≤ s.heap.cells.length := nodup_length_le hnd h.chain.lt
  have hch := chain_eq_of_isChain h.chain (s.heap.cells.length + 1)
    (by simp at hle; omega)
  constructor
  · unfold threadpool_queue.reachable
    rw [hch, h.length_eq]
    simp
  · rw [h.length_eq, ← h.chain.nil_iff]
    constructor
    · intro h0
      exact List.length_eq_zero.mp (by exact_mod_cast h0)
    · intro h0
      simp [h0]

/-! ## Queue structure -/

theorem wrap_int_idem (x : Int) : wrap_int (wrap_int x) = wrap_int x := by
  unfold wrap_int
  omega

theorem wrap_int_succ (x : Int) (k : Nat) :
    wrap_int (wrap_int (x + 1) + k) = wrap_int (x + ((k + 1 : Nat) : Int)) := by
  unfold wrap_int
  push_cast
  omega

theorem run_add_jobs_length (fs : List Nat) (s : State) (hm : s.main = MainPc.ready)
    (hl : s.tp.queue.lock = false) (hrange : wrap_int s.tp.queue.length = s.tp.queue.length) :
    ∃ s', run s (fs.map Action.add_job) = some s' ∧
      s'.tp.queue.length = wrap_int (s.tp.queue.length + (fs.length : Nat)) ∧
      s'.executed = s.executed := by
  induction fs generalizing s with
  | nil => exact ⟨s, rfl, by simpa using hrange.symm, rfl⟩
  | cons f fs ih =>
    have hstep : step s (Action.add_job f)
        = some { s with tp := (s.tp.add_job s.heap f).1, heap := (s.tp.add_job s.heap f).2 } := by
      simp [step, hm, hl]
    have hq := add_job_length s.tp.queue s.heap f
    obtain ⟨s', hr, hlen, hex⟩ :=
      ih { s with tp := (s.tp.add_job s.heap f).1, heap := (s.tp.add_job s.heap f).2 } hm
        (by
          show (s.tp.queue.add_job s.heap f).1.lock = false
          rw [hq.2.1]; exact hl)
        (by
          show wrap_int (s.tp.queue.add_job s.heap f).1.length
            = (s.tp.queue.add_job s.heap f).1.length
          rw [hq.1, wrap_int_idem])
    refine ⟨s', ?_, ?_, hex⟩
    · simp only [List.map_cons, run, hstep]
      exact hr
    · rw [hlen]
      show wrap_int ((s.tp.queue.add_job s.heap f).1.length + (fs.length : Nat)) = _
      rw [hq.1, wrap_int_succ]
      simp

theorem run_main_spawned_zero (acts : List Action) :
    run (threadpool.spawned 0) (Action.main :: acts) = run (fresh_pool 0) acts := by
  simp [run, step, main_step, threadpool.spawned, fresh_pool]

theorem queue_length_fails_of_many_jobs (fs : List Nat) (hfs : fs.length = 2147483648) :
    ¬ (∀ (r : Resources) (threadc : Int) (s0 s : State) (acts : List Action),
        threadpool.create r threadc = Except.ok s0 → (∀ a ∈ acts, a.keeps_jobs = true) →
        run s0 acts = some s →
        s.tp.queue.length = (s.tp.queue.reachable s.heap : Nat) ∧
          (s.tp.queue.length = 0 ↔ s.tp.queue.head = none)) := by
  intro h
  obtain ⟨s', hr, hlen, -⟩ := run_add_jobs_length fs (fresh_pool 0) rfl rfl (by decide)
  have hrun : run (threadpool.spawned 0) (Action.main :: fs.map Action.add_job) = some s' := by
    rw [run_main_spawned_zero]; exact hr
  have hk : ∀ a ∈ Action.main :: fs.map Action.add_job, a.keeps_jobs = true := by
    intro a ha
    rcases List.mem_cons.mp ha with rfl | ha
    · rfl
    · obtain ⟨f, -, rfl⟩ := List.mem_map.mp ha
      rfl
  have h1 := (h (Resources.ample 0) 0 _ s' _ rfl hk hrun).1
  rw [hlen, hfs] at h1
  have h2 : wrap_int ((fresh_pool 0).tp.queue.length + ((2147483648 : Nat) : Int))
      = -2147483648 := by decide
  rw [h2] at h1
  omega

/-- C9 counterexample: a pool of no worker is constructed and `add_job` is called
2147483648 times: the last `length++` is executed at `INT_MAX`, `length` comes out
negative, and 2147483648 jobs are reachable from `head`. -/
theorem queue_length_wraps_at_int_max :
    ¬ (∀ (r : Resources) (threadc : Int) (s0 s : State) (acts : List Action),
        threadpool.create r threadc = Except.ok s0 → (∀ a ∈ acts, a.keeps_jobs = true) →
        run s0 acts = some s →
        s.tp.queue.length = (s.tp.queue.reachable s.heap : Nat) ∧
          (s.tp.queue.length = 0 ↔ s.tp.queue.head = none)) :=
  queue_length_fails_of_many_jobs (List.replicate 2147483648 0) (List.length_replicate _ _)

/-- C9 as amended: in every state reached from the constructor by any interleaving of
`add_job` calls, `wait` calls and worker actions (the dequeue block among them) in
which `add_job` is never called while `length == INT_MAX`, `length` is the number of
jobs reachable from `head` through `next`, and `length == 0` exactly when `head` is
null. -/
theorem queue_length_counts_reachable_jobs (r : Resources) (threadc : Int) (s0 s : State)
    (acts : List Action) (h0 : threadpool.create r threadc = Except.ok s0)
    (hk : ∀ a ∈ acts, a.keeps_jobs = true) (hov : no_overflow s0 acts = true)
    (hr : run s0 acts = some s) :
    s.tp.queue.length = (s.tp.queue.reachable s.heap : Nat) ∧
      (s.tp.queue.length = 0 ↔ s.tp.queue.head = none) := by
  rw [create_eq_spawned h0] at hr hov
  obtain ⟨l, hl⟩ := (QueueInv.queue_spawned threadc).queue_run hk hov hr
  exact hl.length_eq_reachable

/-- C9 witness: the two-worker pool holding one job. -/
theorem queue_length_counts_reachable_jobs_witness :
    busy_pool.tp.queue.reachable busy_pool.heap = 1 ∧
      (busy_pool.tp.queue.length = (busy_pool.tp.queue.reachable busy_pool.heap : Nat) ∧
        (busy_pool.tp.queue.length = 0 ↔ busy_pool.tp.queue.head = none)) :=
  ⟨by decide,
    queue_length_counts_reachable_jobs (Resources.ample 2) 2 (threadpool.spawned 2) busy_pool
      busy_schedule rfl (by decide) (by decide) (by decide)⟩

/-! ## Submitting jobs and draining the queue -/

theorem run_add_jobs (fs : List Nat) (s : State) (l : List (Nat × Nat)) (h : QueueInv s l)
    (hm : s.main = MainPc.ready) (hl : s.tp.queue.lock = false)
    (hb : ((l.length + fs.length : Nat) : Int) ≤ INT_MAX) :
    ∃ s' l', run s (fs.map Action.add_job) = some s' ∧ QueueInv s' l' ∧
      l'.map Prod.snd = fs.reverse ++ l.map Prod.snd ∧ s'.workers = s.workers ∧
      s'.main = MainPc.ready ∧ s'.tp.queue.lock = false ∧ s'.executed = s.executed ∧
      s'.tp.threads_alive = s.tp.threads_alive ∧
      s'.tp.num_threads_working = s.tp.num_threads_working ∧
      s'.queue_deleted = s.queue_deleted := by
  induction fs generalizing s l with
  | nil => exact ⟨s, l, rfl, h, by simp, rfl, hm, hl, rfl, rfl, rfl, rfl⟩
  | cons f fs ih =>
    have hstep : step s (Action.add_job f)
        = some { s with tp := (s.tp.add_job s.heap f).1, heap := (s.tp.add_job s.heap f).2 } := by
      simp [step, hm, hl]
    have hq := add_job_length s.tp.queue s.heap f
    have hmax : s.tp.queue.length < INT_MAX := by
      rw [h.length_eq]
      simp only [List.length_cons] at hb
      push_cast at hb
      omega
    obtain ⟨s', l', hr, hinv, hmap, hw, hm', hl', hex, ha, hwk, hqd⟩ :=
      ih _ _ (h.queue_add_job f hmax) hm (by
        show (s.tp.queue.add_job s.heap f).1.lock = false
        rw [hq.2.1]; exact hl) (by
        simp only [List.length_cons] at hb ⊢
        push_cast at hb ⊢
        omega)
    refine ⟨s', l', ?_, hinv, ?_, hw, hm', hl', hex, ha, hwk, hqd⟩
    · simp only [List.map_cons, run, hstep]
      exact hr
    · rw [hmap]
      simp

theorem worker_pass_spec (s : State) (rest : List WorkerPc) (a f : Nat) (l : List (Nat × Nat))
    (h : QueueInv s ((a, f) :: l)) (hw : s.workers = WorkerPc.loop :: rest)
    (hl : s.tp.queue.lock = false) (ha : s.tp.threads_alive ≠ 0)
    (hqd : s.queue_deleted = false) :
    ∃ s', run s (worker_pass 0) = some s' ∧ QueueInv s' l ∧
      s'.executed = s.executed ++ [f] ∧ s'.workers = s.workers ∧ s'.main = s.main ∧
      s'.tp.queue.lock = false ∧ s'.tp.threads_alive = s.tp.threads_alive ∧
      s'.tp.num_threads_working = s.tp.num_threads_working ∧
      s'.queue_deleted = false := by
  have hlen := h.length_eq
  have hne : s.tp.queue.length ≠ 0 := by rw [hlen]; simp; omega
  have hbd : (l.length : Int) ≤ INT_MAX := by
    have := h.bound
    simp only [List.length_cons] at this
    push_cast at this
    omega
  rcases dequeue_chain h.chain h.length_eq h.bound with
    ⟨hnil, -⟩ | ⟨a', f', l', q', hl', hd, hc', hlen', hlock'⟩
  · simp at hnil
  · simp only [List.cons.injEq, Prod.mk.injEq] at hl'
    obtain ⟨⟨rfl, rfl⟩, rfl⟩ := hl'
    obtain ⟨-, nx, hread, -⟩ := h.chain
    have hdel : s.heap.delete a = some { s.heap with freed := a :: s.heap.freed } := by
      simp [Heap.delete, hread]
    have hnd := h.nodup
    simp only [List.map_cons, List.cons_append] at hnd
    have ha_notin := (List.nodup_cons.mp hnd).1
    obtain ⟨tp, m, qd, mn, ws, ex⟩ := s
    simp only at hw hl ha hne hd hread hdel hc' hlen' hlock' ha_notin hnd hqd
    subst hw
    subst hqd
    refine ⟨{ tp := { tp with queue := q' }, heap := { m with freed := a :: m.freed },
              queue_deleted := false, main := mn, workers := WorkerPc.loop :: rest,
              executed := ex ++ [f] }, ?_, ⟨?_, hlen', ?_, ?_, ?_, hbd⟩, rfl, rfl, rfl, ?_,
              rfl, rfl, rfl⟩
    · simp [worker_pass, List.replicate, run, step, thread_work_function,
        State.use_after_free, State.goto, ha, hl, hne, hd, hread, hdel, hlock']
    · apply hc'.congr
      intro b hb
      apply read_delete_ne
      rintro rfl
      exact ha_notin (List.mem_append_left _ hb)
    · exact (List.nodup_cons.mp hnd).2
    · intro b hb
      have hbc : b ≠ a := by
        rintro rfl
        exact ha_notin (List.mem_append_right _ hb)
      show ∃ node, ({ m with freed := a :: m.freed } : Heap).read b = some node
      rw [read_delete_ne _ _ _ hbc]
      exact h.live b hb
    · intro b hb
      simp only [List.mem_cons] at hb
      rcases hb with rfl | hb
      · show b < m.cells.length
        exact read_lt hread
      · exact h.freed_lt b hb
    · show q'.lock = false
      rw [hlock']; exact hl

theorem drain_of_empty (fuel : Nat) (s : State) (h0 : s.tp.queue.length = 0) :
    drain fuel s = some s := by
  cases fuel <;> simp [drain, h0]

theorem drain_mono (fuel fuel' : Nat) (s s' : State) (hf : fuel ≤ fuel')
    (h : drain fuel s = some s') : drain fuel' s = some s' := by
  induction fuel generalizing s fuel' with
  | zero =>
    simp only [drain] at h
    split at h
    · rename_i h0
      simp at h; subst h
      exact drain_of_empty _ _ h0
    · simp at h
  | succ fuel ih =>
    cases fuel' with
    | zero => simp at hf
    | succ fuel' =>
      simp only [drain] at h ⊢
      by_cases h0 : s.tp.queue.length = 0
      · simp only [h0, if_true] at h ⊢
        exact h
      · simp only [h0, if_false] at h ⊢
        cases hr : run s (worker_pass 0) with
        | none => simp [hr] at h
        | some s1 =>
          simp only [hr] at h ⊢
          exact ih fuel' s1 (by omega) h

theorem drain_spec (l : List (Nat × Nat)) (s : State) (rest : List WorkerPc) (fuel : Nat)
    (h : QueueInv s l) (hw : s.workers = WorkerPc.loop :: rest)
    (hl : s.tp.queue.lock = false) (ha : s.tp.threads_alive ≠ 0)
    (hqd : s.queue_deleted = false) (hf : l.length ≤ fuel) :
    ∃ s', drain fuel s = some s' ∧ s'.executed = s.executed ++ l.map Prod.snd ∧
      s'.tp.queue.length = 0 ∧ s'.main = s.main ∧
      s'.tp.num_threads_working = s.tp.num_threads_working := by
  induction l generalizing s fuel with
  | nil =>
    have h0 : s.tp.queue.length = 0 := by rw [h.length_eq]; rfl
    exact ⟨s, drain_of_empty _ _ h0, by simp, h0, rfl, rfl⟩
  | cons x l ih =>
    obtain ⟨a, f⟩ := x
    have hne : s.tp.queue.length ≠ 0 := by rw [h.length_eq]; simp; omega
    cases fuel with
    | zero => simp at hf
    | succ fuel =>
      obtain ⟨s1, hr, hinv, hex, hw1, hm1, hl1, ha1, hwk1, hqd1⟩ :=
        worker_pass_spec s rest a f l h hw hl ha hqd
      obtain ⟨s', hd, hex', h0, hm', hwk'⟩ :=
        ih s1 fuel hinv (by rw [hw1]; exact hw) hl1 (by rw [ha1]; exact ha) hqd1
          (by simpa using hf)
      refine ⟨s', ?_, ?_, h0, by rw [hm', hm1], by rw [hwk', hwk1]⟩
      · simp only [drain, hne, if_false, hr]
        exact hd
      · rw [hex', hex]
        simp

theorem QueueInv.queue_fresh_pool (n : Nat) : QueueInv (fresh_pool n) [] := by
  have hfl : (List.replicate n WorkerPc.loop).filterMap WorkerPc.held = [] := by
    rw [List.filterMap_eq_nil_iff]
    intro w hw
    rw [List.eq_of_mem_replicate hw]
    rfl
  refine ⟨rfl, rfl, ?_, ?_, ?_, by decide⟩
  · simp only [State.in_flight, didi.fresh_pool, List.map_nil, List.nil_append, hfl]
    exact List.nodup_nil
  · intro a ha
    simp only [State.in_flight, didi.fresh_pool, hfl] at ha
    simp at ha
  · simp [didi.fresh_pool, Heap.empty]

/-! ## Exactly-once execution -/

theorem exactly_once_fails_of_many_jobs (fs : List Nat) (hfs : fs.length = 4294967296) :
    ¬ (∀ (n : Nat) (fs : List Nat), ∃ s0 s1 s : State, constructed (n + 1) = some s0 ∧
        run s0 (fs.map Action.add_job) = some s1 ∧
        (∀ fuel, fs.length ≤ fuel → drain fuel s1 = some s) ∧
        s.executed.Perm fs ∧ s.executed.length = fs.length ∧
        s.tp.queue.length = 0 ∧ s.tp.num_threads_working = 0 ∧ s.tp.wait = some s.tp) := by
  intro h
  obtain ⟨s0, s1, s, h0, hr, hd, -, hlen, -⟩ := h 0 fs
  rw [constructed_eq] at h0
  simp only [Option.some.injEq] at h0
  subst h0
  obtain ⟨s', hr', hlen', hex'⟩ := run_add_jobs_length fs (fresh_pool 1) rfl rfl (by decide)
  rw [hr] at hr'
  simp only [Option.some.injEq] at hr'
  subst hr'
  have h2 : wrap_int ((fresh_pool 1).tp.queue.length + ((4294967296 : Nat) : Int)) = 0 := by
    decide
  rw [hfs, h2] at hlen'
  have h3 := hd fs.length (le_refl _)
  rw [drain_of_empty _ _ hlen'] at h3
  simp only [Option.some.injEq] at h3
  subst h3
  rw [hex', hfs] at hlen
  simp [fresh_pool] at hlen

/-- C2 counterexample: 4294967296 jobs are submitted to a newly constructed one-worker
pool.  `length++` has gone once round the 32-bit `int` and `length` is 0 again, so the
worker finds the queue "empty" and runs none of them. -/
theorem exactly_once_fails_past_int_range :
    ¬ (∀ (n : Nat) (fs : List Nat), ∃ s0 s1 s : State, constructed (n + 1) = some s0 ∧
        run s0 (fs.map Action.add_job) = some s1 ∧
        (∀ fuel, fs.length ≤ fuel → drain fuel s1 = some s) ∧
        s.executed.Perm fs ∧ s.executed.length = fs.length ∧
        s.tp.queue.length = 0 ∧ s.tp.num_threads_working = 0 ∧ s.tp.wait = some s.tp) :=
  exactly_once_fails_of_many_jobs (List.replicate 4294967296 0) (List.length_replicate _ _)

/-- C2 as amended: on a newly constructed pool with at least one worker, after
`add_job` has been called once for each job of `fs`, at most `INT_MAX` of them, the
queue holds `fs.length` jobs; worker 0 repeating its dequeue-and-run pass until the
queue is empty terminates (any budget of at least `fs.length` passes is enough) having
run exactly `fs.length` callables, a permutation of `fs` (in fact `fs` reversed), and
ends with `length == 0` and `num_threads_working == 0`, where `wait()` returns at
once. -/
theorem every_submitted_job_runs_once (n : Nat) (fs : List Nat)
    (hk : (fs.length : Int) ≤ INT_MAX) :
    ∃ s0 s1 s : State, constructed (n + 1) = some s0 ∧
      run s0 (fs.map Action.add_job) = some s1 ∧ s1.tp.queue.length = fs.length ∧
      (∀ fuel, fs.length ≤ fuel → drain fuel s1 = some s) ∧
      s.executed.Perm fs ∧ s.executed = fs.reverse ∧ s.executed.length = fs.length ∧
      s.tp.queue.length = 0 ∧ s.tp.num_threads_working = 0 ∧
      s.tp.wait = some s.tp ∧ run s [Action.wait, Action.main] = some s := by
  obtain ⟨s1, l, hr, hinv, hmap, hw, hm, hl, hex, ha, hwk, hqd⟩ :=
    run_add_jobs fs (fresh_pool (n + 1)) [] (QueueInv.queue_fresh_pool _) rfl rfl
      (by simpa using hk)
  have hlen : l.length = fs.length := by
    have := congrArg List.length hmap
    simpa using this
  have hw1 : s1.workers = WorkerPc.loop :: List.replicate n WorkerPc.loop := by
    rw [hw]; simp [fresh_pool, List.replicate_succ]
  have ha1 : s1.tp.threads_alive ≠ 0 := by rw [ha]; simp [fresh_pool]
  have hqd1 : s1.queue_deleted = false := by rw [hqd]; rfl
  obtain ⟨s, hd, hex', h0, hm', hwk'⟩ :=
    drain_spec l s1 _ l.length hinv hw1 hl ha1 hqd1 (le_refl _)
  have hexs : s.executed = fs.reverse := by
    rw [hex', hex, hmap]; simp [fresh_pool]
  have hwk0 : s.tp.num_threads_working = 0 := by rw [hwk', hwk]; rfl
  have hwait : s.tp.wait = some s.tp := by simp [threadpool.wait, h0, hwk0]
  have hms : s.main = MainPc.ready := by rw [hm', hm]
  refine ⟨fresh_pool (n + 1), s1, s, constructed_eq _, hr, ?_, ?_, ?_, hexs, ?_, h0, hwk0,
    hwait, ?_⟩
  · rw [hinv.length_eq, hlen]
  · intro fuel hf
    exact drain_mono l.length fuel s1 s (by omega) hd
  · rw [hexs]; exact List.reverse_perm fs
  · rw [hexs]; simp
  · obtain ⟨tp, m, qd, mn, ws, ex⟩ := s
    simp only at hms hwait
    subst hms
    simp [run, step, main_step, hwait]

/-- C2 witness: three jobs submitted to a one-worker pool, drained with a budget of five
passes. -/
theorem every_submitted_job_runs_once_witness :
    ∃ s0 s1 s : State, constructed 1 = some s0 ∧
      run s0 [Action.add_job 1, Action.add_job 2, Action.add_job 3] = some s1 ∧
      s1.tp.queue.length = 3 ∧ drain 5 s1 = some s ∧
      s.executed.Perm [1, 2, 3] ∧ s.executed = [3, 2, 1] ∧ s.executed.length = 3 ∧
      s.tp.queue.length = 0 ∧ s.tp.num_threads_working = 0 ∧
      s.tp.wait = some s.tp ∧ run s [Action.wait, Action.main] = some s :=
  match every_submitted_job_runs_once 0 [1, 2, 3] (by decide) with
  | ⟨s0, s1, s, h1, h2, h3, h4, rest⟩ => ⟨s0, s1, s, h1, h2, h3, h4 5 (by decide), rest⟩

end didi
